import Mathlib

set_option maxRecDepth 10000

/-!
Verification of the shadow-os-app-core cryptographic computation engine.

This file gives a shallow embedding, in Lean 4, of the core components of the
repository: prime-field arithmetic (`FieldElement`, src/core/field.ts),
coefficient-vector polynomials with Lagrange interpolation (`Polynomial`,
src/core/polynomial.ts), the binary Merkle commitment scheme
(`MerkleTree` / `MerkleProof`, src/core/merkle.ts), and the x402 stealth
payment ledger (`X402StealthPayment`, src/zk/x402.ts), together with theorems
settling the specification's claims about them.

Modelling conventions:
- JavaScript `Uint8Array` values are modelled as `List Nat` (named `Bytes`);
  each entry of an actual `Uint8Array` is below 256.
- JavaScript `bigint` is modelled as `Int`; the truncated `%` and `/` of
  JS bigints are `Int.tmod` and `Int.tdiv`.
- The SHA-256 hash (from @noble/hashes, an external dependency of the repo)
  is implemented executably below, following FIPS 180-4.
- Functions on the Merkle tree and the ledger are additionally stated in a
  form parametrised by the hash function; the instantiation at `sha256`
  matches the source exactly.
- Code that throws is modelled with `Except`; code whose throwing branches
  are unreachable on the inputs a claim quantifies over is modelled totally,
  with the relevant precondition stated as a hypothesis of the theorem.
- `FieldElement.random` consumes bytes from an explicit stream argument that
  stands for the CSPRNG output of `crypto.getRandomValues`.
-/

/-- Byte strings (JS `Uint8Array`) are lists of naturals; real entries are < 256. -/
abbrev Bytes := List Nat

/-! ## SHA-256 (FIPS 180-4), the hash used throughout the repository -/

namespace Sha256

/-- Right rotation of a 32-bit word. -/
def rotr (n x : Nat) : Nat := (x / 2 ^ n + x % 2 ^ n * 2 ^ (32 - n)) % 2 ^ 32

/-- Logical right shift. -/
def shr (n x : Nat) : Nat := x / 2 ^ n

/-- Bitwise complement on 32 bits. -/
def bnot32 (x : Nat) : Nat := 2 ^ 32 - 1 - x % 2 ^ 32

def smallSigma0 (x : Nat) : Nat := rotr 7 x ^^^ rotr 18 x ^^^ shr 3 x

def smallSigma1 (x : Nat) : Nat := rotr 17 x ^^^ rotr 19 x ^^^ shr 10 x

def bigSigma0 (x : Nat) : Nat := rotr 2 x ^^^ rotr 13 x ^^^ rotr 22 x

def bigSigma1 (x : Nat) : Nat := rotr 6 x ^^^ rotr 11 x ^^^ rotr 25 x

def ch (x y z : Nat) : Nat := (x &&& y) ^^^ (bnot32 x &&& z)

def maj (x y z : Nat) : Nat := (x &&& y) ^^^ (x &&& z) ^^^ (y &&& z)

/-- The 64 round constants (fractional parts of cube roots of the first 64 primes). -/
def kConstants : List Nat :=
  [1116352408, 1899447441, 3049323471, 3921009573, 961987163,
   1508970993, 2453635748, 2870763221, 3624381080, 310598401,
   607225278, 1426881987, 1925078388, 2162078206, 2614888103,
   3248222580, 3835390401, 4022224774, 264347078, 604807628,
   770255983, 1249150122, 1555081692, 1996064986, 2554220882,
   2821834349, 2952996808, 3210313671, 3336571891, 3584528711,
   113926993, 338241895, 666307205, 773529912, 1294757372,
   1396182291, 1695183700, 1986661051, 2177026350, 2456956037,
   2730485921, 2820302411, 3259730800, 3345764771, 3516065817,
   3600352804, 4094571909, 275423344, 430227734, 506948616,
   659060556, 883997877, 958139571, 1322822218, 1537002063,
   1747873779, 1955562222, 2024104815, 2227730452, 2361852424,
   2428436474, 2756734187, 3204031479, 3329325298]

/-- The running hash state: eight 32-bit words. -/
structure State where
  sa : Nat
  sb : Nat
  sc : Nat
  sd : Nat
  se : Nat
  sf : Nat
  sg : Nat
  sh : Nat

/-- Initial hash value (fractional parts of square roots of the first 8 primes). -/
def initState : State :=
  ⟨1779033703, 3144134277, 1013904242, 2773480762,
   1359893119, 2600822924, 528734635, 1541459225⟩

/-- Message padding: append 0x80, zeros to 56 mod 64, then the 64-bit
big-endian bit length. -/
def pad (msg : List Nat) : List Nat :=
  let len := msg.length
  let k := (119 - len % 64) % 64
  let bitLen := (8 * len) % 2 ^ 64
  msg ++ 0x80 :: List.replicate k 0 ++
    (List.range 8).map (fun i => bitLen / 2 ^ (8 * (7 - i)) % 256)

/-- Big-endian 32-bit word from four bytes. -/
def wordOf (l : List Nat) : Nat := l.foldl (fun acc b => acc * 256 + b % 256) 0

/-- Split a list into chunks of `n` (fuel-based for kernel evaluation). -/
def chunksGo (n : Nat) : Nat → List Nat → List (List Nat)
  | 0, _ => []
  | _, [] => []
  | fuel + 1, l => l.take n :: chunksGo n fuel (l.drop n)

def chunks (n : Nat) (l : List Nat) : List (List Nat) := chunksGo n l.length l

/-- Extend the 16 message words to 64. -/
def scheduleGo : Nat → List Nat → List Nat
  | 0, ws => ws
  | n + 1, ws =>
    let m := ws.length
    let w := (smallSigma1 (ws.getD (m - 2) 0) + ws.getD (m - 7) 0 +
              smallSigma0 (ws.getD (m - 15) 0) + ws.getD (m - 16) 0) % 2 ^ 32
    scheduleGo n (ws ++ [w])

def schedule (block : List Nat) : List Nat :=
  scheduleGo 48 ((chunks 4 block).map wordOf)

/-- One compression round. -/
def round (st : State) (kw : Nat × Nat) : State :=
  let t1 := (st.sh + bigSigma1 st.se + ch st.se st.sf st.sg + kw.1 + kw.2) % 2 ^ 32
  let t2 := (bigSigma0 st.sa + maj st.sa st.sb st.sc) % 2 ^ 32
  ⟨(t1 + t2) % 2 ^ 32, st.sa, st.sb, st.sc, (st.sd + t1) % 2 ^ 32, st.se, st.sf, st.sg⟩

/-- Process one 64-byte block. -/
def compress (st : State) (block : List Nat) : State :=
  let fin := (kConstants.zip (schedule block)).foldl round st
  ⟨(st.sa + fin.sa) % 2 ^ 32, (st.sb + fin.sb) % 2 ^ 32,
   (st.sc + fin.sc) % 2 ^ 32, (st.sd + fin.sd) % 2 ^ 32,
   (st.se + fin.se) % 2 ^ 32, (st.sf + fin.sf) % 2 ^ 32,
   (st.sg + fin.sg) % 2 ^ 32, (st.sh + fin.sh) % 2 ^ 32⟩

/-- Four big-endian bytes of a 32-bit word. -/
def wordBytes (w : Nat) : List Nat :=
  [w / 2 ^ 24 % 256, w / 2 ^ 16 % 256, w / 2 ^ 8 % 256, w % 256]

def digest (st : State) : Bytes :=
  wordBytes st.sa ++ wordBytes st.sb ++ wordBytes st.sc ++ wordBytes st.sd ++
  wordBytes st.se ++ wordBytes st.sf ++ wordBytes st.sg ++ wordBytes st.sh

end Sha256

/-- SHA-256 of a byte string. -/
def sha256 (msg : Bytes) : Bytes :=
  Sha256.digest (((Sha256.chunks 64 (Sha256.pad msg))).foldl Sha256.compress Sha256.initState)

/-- A SHA-256 digest always has exactly 32 bytes. -/
theorem sha256_length (msg : Bytes) : (sha256 msg).length = 32 := by
  simp [sha256, Sha256.digest, Sha256.wordBytes]

namespace Shadow

/-- Error kinds thrown by the embedded operations (src/core/errors.ts and the
plain `Error`s of src/core/merkle.ts; messages are not modelled). -/
inductive Err where
  | validationErr
  | proofErr
  | emptyInterpolationSet
  | indexOutOfRange
  | notInvertible
deriving DecidableEq, Repr

/-! ## FieldElement (src/core/field.ts) -/

/-- The STARK-friendly prime modulus, `2^251 + 17 * 2^192 + 1`. -/
def SHADOW_PRIME : Int := 2 ^ 251 + 17 * 2 ^ 192 + 1

/-- A field element, a pair of a value and a modulus (both JS `bigint`). -/
structure FieldElement where
  value : Int
  modulus : Int
deriving DecidableEq, Repr

namespace FieldElement

/-- The source's `mod(a, m) = ((a % m) + m) % m` with JS (truncated) bigint `%`. -/
def jsMod (a m : Int) : Int := (a.tmod m + m).tmod m

/-- The constructor `new FieldElement(value, modulus)`: out-of-range values are
normalised with `jsMod`. -/
def make (value modulus : Int) : FieldElement :=
  if value < 0 ∨ modulus ≤ value then ⟨jsMod value modulus, modulus⟩
  else ⟨value, modulus⟩

/-- `add`. The source first throws unless the moduli agree; the model is only
applied to equal-modulus operands, where it matches the source exactly. -/
def add (a b : FieldElement) : FieldElement :=
  make (jsMod (a.value + b.value) a.modulus) a.modulus

/-- `sub` (same equal-moduli convention as `add`). -/
def sub (a b : FieldElement) : FieldElement :=
  make (jsMod (a.value - b.value) a.modulus) a.modulus

/-- `mul` (same equal-moduli convention as `add`). -/
def mul (a b : FieldElement) : FieldElement :=
  make (jsMod (a.value * b.value) a.modulus) a.modulus

/-- The extended-Euclidean loop of `inverse()`. JS bigint division truncates,
hence `Int.tdiv`. The fuel only bounds the iteration count; the loop stops at
`r = 0`, and `r` strictly decreases, so `modulus + 2` steps always suffice. -/
def egcdLoop : Nat → Int → Int → Int → Int → Int × Int
  | 0, oldR, _, oldS, _ => (oldR, oldS)
  | fuel + 1, oldR, r, oldS, s =>
    if r = 0 then (oldR, oldS)
    else
      let q := oldR.tdiv r
      egcdLoop fuel r (oldR - q * r) s (oldS - q * s)

/-- `inverse()`. The source throws `NotInvertible` when the final gcd exceeds 1;
claims apply `inverse` only where invertibility holds or is hypothesised. -/
def inverse (a : FieldElement) : FieldElement :=
  let res := egcdLoop (a.modulus.toNat + 2) a.value a.modulus 1 0
  ⟨jsMod res.2 a.modulus, a.modulus⟩

/-- `neg()`. -/
def neg (a : FieldElement) : FieldElement :=
  make (jsMod (-a.value) a.modulus) a.modulus

/-- `equals()`: value and modulus must both agree. -/
def equals (a b : FieldElement) : Bool :=
  a.value == b.value && a.modulus == b.modulus

/-- `isZero()`. -/
def isZero (a : FieldElement) : Bool := a.value == 0

/-- `isOne()`. -/
def isOne (a : FieldElement) : Bool := a.value == 1

/-- `toBytes()`: exactly 32 bytes, big-endian. The byte loop masks with
`0xff` and shifts right; for the normalised (nonnegative) values it equals
extraction of base-256 digits. -/
def toBytes (a : FieldElement) : Bytes :=
  (List.range 32).map (fun i => a.value.toNat / 256 ^ (31 - i) % 256)

/-- Big-endian value of a byte list (the accumulation loop shared by
`fromBytes` and `random`). -/
def bytesToNat (l : Bytes) : Nat := l.foldl (fun acc b => acc * 256 + b) 0

/-- `fromBytes(bytes, modulus)`: big-endian accumulation, then the constructor. -/
def fromBytes (bytes : Bytes) (modulus : Int) : FieldElement :=
  make (bytesToNat bytes : Int) modulus

/-- `FieldElement.zero(modulus)`. -/
def zeroF (modulus : Int) : FieldElement := make 0 modulus

/-- `FieldElement.one(modulus)`. -/
def oneF (modulus : Int) : FieldElement := make 1 modulus

/-- Byte length drawn by `random`: `Math.ceil(max.toString(16).length / 2)`
(`Nat.toDigits 16` is exactly the hex-digit string of `toString(16)` for
nonnegative values). -/
def randomByteLength (modulus : Int) : Nat :=
  let max := modulus - 1
  let hexLen := (Nat.toDigits 16 max.toNat).length
  (hexLen + 1) / 2

/-- The value of the `randomByteLength`-byte draw `crypto.getRandomValues`
fills at the head of the stream. -/
def drawValue (modulus : Int) (stream : List Nat) : Nat :=
  bytesToNat ((List.range (randomByteLength modulus)).map (fun i => stream.getD i 0 % 256))

/-- `FieldElement.random(modulus)`, as a function of the CSPRNG byte stream it
consumes: draw `randomByteLength` bytes once and reduce modulo `max + 1`. -/
def random (modulus : Int) (stream : List Nat) : FieldElement :=
  make ((drawValue modulus stream : Int).tmod (modulus - 1 + 1)) modulus

/-- Modelled from the spec: the claimed uniform rejection-sampling reference
procedure for `random` ("uniform via rejection sampling over the CSPRNG byte
stream"), which the source file does not implement: draw `randomByteLength`
bytes; accept the value if it is at most `modulus - 1`, otherwise discard the
draw and repeat on the rest of the stream. -/
def randomRejection (modulus : Int) : Nat → List Nat → Option FieldElement
  | 0, _ => none
  | fuel + 1, stream =>
    if (drawValue modulus stream : Int) ≤ modulus - 1 then
      some (make (drawValue modulus stream : Int) modulus)
    else randomRejection modulus fuel (stream.drop (randomByteLength modulus))

end FieldElement

/-! ## Polynomial (src/core/polynomial.ts) -/

/-- A polynomial: coefficients lowest-degree first. -/
structure Polynomial where
  coefficients : List FieldElement
deriving DecidableEq, Repr

namespace Polynomial

/-- The constructor's trailing-zero trimming loop: pop while the
highest-degree coefficient isZero. -/
def trimTrailingZeros (l : List FieldElement) : List FieldElement :=
  (l.reverse.dropWhile (fun c => c.isZero)).reverse

/-- `new Polynomial(coefficients)`. -/
def make (l : List FieldElement) : Polynomial := ⟨trimTrailingZeros l⟩

/-- `degree()` (`coefficients.length - 1` on a JS number, hence `Int`). -/
def degree (p : Polynomial) : Int := (p.coefficients.length : Int) - 1

/-- `evaluate(x)`: accumulate `result += coeff * power; power *= x`. -/
def evaluate (p : Polynomial) (x : FieldElement) : FieldElement :=
  (p.coefficients.foldl
    (fun (acc : FieldElement × FieldElement) c => (acc.1.add (c.mul acc.2), acc.2.mul x))
    (FieldElement.zeroF x.modulus, FieldElement.oneF x.modulus)).1

/-- The modulus inference `this.coefficients[0]?.modulus || SHADOW_PRIME`
(note `0n` is falsy in JS). -/
def headModulus (l : List FieldElement) : Int :=
  match l with
  | [] => SHADOW_PRIME
  | c :: _ => if c.modulus = 0 then SHADOW_PRIME else c.modulus

/-- The coefficient access `coefficients[i] || FieldElement.zero(modulus)`. -/
def coefAt (m : Int) (l : List FieldElement) (i : Nat) : FieldElement :=
  l.getD i (FieldElement.zeroF m)

/-- `add(other)`. -/
def add (p q : Polynomial) : Polynomial :=
  let m := headModulus p.coefficients
  let maxLen := max p.coefficients.length q.coefficients.length
  make ((List.range maxLen).map
    (fun i => (coefAt m p.coefficients i).add (coefAt m q.coefficients i)))

/-- `sub(other)`. -/
def sub (p q : Polynomial) : Polynomial :=
  let m := headModulus p.coefficients
  let maxLen := max p.coefficients.length q.coefficients.length
  make ((List.range maxLen).map
    (fun i => (coefAt m p.coefficients i).sub (coefAt m q.coefficients i)))

/-- `mul(other)`: naive convolution up to `this.degree() + other.degree()`;
the iteration count `degree + 1` equals `lenP + lenQ - 1` under truncated
natural subtraction, matching the JS loop also when a factor is the empty
(zero) polynomial of degree `-1`. -/
def mul (p q : Polynomial) : Polynomial :=
  let m := headModulus p.coefficients
  let count := p.coefficients.length + q.coefficients.length - 1
  make ((List.range count).map (fun i =>
    ((List.range (i + 1)).map
      (fun j => (coefAt m p.coefficients j).mul (coefAt m q.coefficients (i - j)))).foldl
      FieldElement.add (FieldElement.zeroF m)))

/-- `Polynomial.zero(modulus)` (trims to the empty coefficient list). -/
def zero (modulus : Int) : Polynomial := make [FieldElement.zeroF modulus]

/-- `Polynomial.one(modulus)`. -/
def one (modulus : Int) : Polynomial := make [FieldElement.oneF modulus]

/-- Default point used to model JS array indexing that never goes out of
range on the inputs considered. -/
def dfltPoint : FieldElement × FieldElement :=
  (FieldElement.zeroF SHADOW_PRIME, FieldElement.zeroF SHADOW_PRIME)

/-- The Lagrange construction loop of `interpolate` (defined for all inputs;
`interpolate` itself rejects the empty list). -/
def interpolateAux (points : List (FieldElement × FieldElement)) : Polynomial :=
  let m := (points.headD dfltPoint).1.modulus
  (List.range points.length).foldl (fun result i =>
    let xi := (points.getD i dfltPoint).1
    let yi := (points.getD i dfltPoint).2
    let basis := (List.range points.length).foldl (fun basis j =>
      if i = j then basis
      else
        let xj := (points.getD j dfltPoint).1
        let denominator := xi.sub xj
        let numerator := make [xj.neg, FieldElement.oneF m]
        (basis.mul numerator).mul (make [denominator.inverse]))
      (one m)
    result.add (basis.mul (make [yi])))
    (zero m)

/-- `Polynomial.interpolate(points)`: throws on the empty list. -/
def interpolate (points : List (FieldElement × FieldElement)) : Except Err Polynomial :=
  if points.length = 0 then .error .emptyInterpolationSet
  else .ok (interpolateAux points)

end Polynomial

/-! ## MerkleTree / MerkleProof (src/core/merkle.ts)

The source hard-codes `sha256`; every function here takes the hash as an
explicit first argument, and the claims instantiate it with `sha256`. -/

/-- An inclusion proof: `(leaf, siblings bottom-up, index, root)`. -/
structure MerkleProof where
  leaf : Bytes
  siblings : List Bytes
  index : Nat
  root : Bytes
deriving DecidableEq, Repr

namespace MerkleProof

/-- One step of the `verify()` loop: combine the running hash with a sibling
in the order given by the parity of the running index, then halve the index. -/
def verifyStep (hash : Bytes → Bytes) (acc : Bytes × Nat) (sibling : Bytes) : Bytes × Nat :=
  let combined := if acc.2 % 2 = 0 then acc.1 ++ sibling else sibling ++ acc.1
  (hash combined, acc.2 / 2)

/-- `verify()`: recompute the path hash from the leaf and compare with `root`
byte for byte (the source's length check plus element loop is list equality). -/
def verifyWith (hash : Bytes → Bytes) (p : MerkleProof) : Bool :=
  (p.siblings.foldl (verifyStep hash) (p.leaf, p.index)).1 == p.root

/-- `verify()` with the source's hash. -/
def verify (p : MerkleProof) : Bool := p.verifyWith sha256

end MerkleProof

/-- A Merkle tree: the stored leaves and the list of levels (level 0 is the
leaves; the last level holds the root when nonempty). -/
structure MerkleTree where
  leaves : List Bytes
  tree : List (List Bytes)
deriving DecidableEq, Repr

namespace MerkleTree

/-- One round of `buildTree`: hash ordered sibling pairs, duplicating an
unpaired last element. -/
def nextLevel (hash : Bytes → Bytes) (level : List Bytes) : List Bytes :=
  (List.range ((level.length + 1) / 2)).map (fun j =>
    let left := level.getD (2 * j) []
    let right := if 2 * j + 1 < level.length then level.getD (2 * j + 1) [] else left
    hash (left ++ right))

/-- The `while (currentLevel.length > 1)` loop of `buildTree`, producing the
levels pushed onto `tree`. The fuel only bounds the iteration count; each
round at least halves the level length, so `level.length` rounds suffice. -/
def buildLevelsGo (hash : Bytes → Bytes) : Nat → List Bytes → List (List Bytes)
  | 0, _ => []
  | fuel + 1, current =>
    if current.length > 1 then
      let next := nextLevel hash current
      next :: buildLevelsGo hash fuel next
    else []

/-- `new MerkleTree(leaves)`: a copy of the leaves, and all levels built
eagerly (the JS shallow copy is irrelevant for immutable lists). -/
def makeWith (hash : Bytes → Bytes) (leaves : List Bytes) : MerkleTree :=
  ⟨leaves, leaves :: buildLevelsGo hash leaves.length leaves⟩

/-- `getRoot()`: the sole element of the top level, absent for an empty tree. -/
def getRoot (t : MerkleTree) : Option Bytes :=
  match t.tree.getLast? with
  | none => none
  | some lvl => lvl.head?

/-- The sibling-collection loop of `getProof`: walk all levels but the last,
taking `level[i ± 1]` when present and `level[i]` (self-pairing) otherwise. -/
def collectSiblings : List (List Bytes) → Nat → List Bytes
  | [], _ => []
  | [_], _ => []
  | lvl :: next :: rest, i =>
    (if (if i % 2 = 0 then i + 1 else i - 1) < lvl.length
     then lvl.getD (if i % 2 = 0 then i + 1 else i - 1) []
     else lvl.getD i []) :: collectSiblings (next :: rest) (i / 2)

/-- The proof object `getProof` constructs for an in-range index. The source
passes `this.getRoot()` (defined, since the leaf list is nonempty there). -/
def getProofUnchecked (t : MerkleTree) (index : Nat) : MerkleProof :=
  ⟨t.leaves.getD index [], collectSiblings t.tree index, index, t.getRoot.getD []⟩

/-- `getProof(index)`: throws for an out-of-range index (a negative JS index
fails the same check). -/
def getProofWith (hash : Bytes → Bytes) (t : MerkleTree) (index : Nat) :
    Except Err MerkleProof :=
  if index ≥ t.leaves.length then .error .indexOutOfRange
  else .ok (t.getProofUnchecked index)

end MerkleTree

/-! ## X402StealthPayment (src/zk/x402.ts) -/

/-- A stealth payment record. -/
structure StealthPayment where
  commitment : Bytes
  stealthAddress : Bytes
  amount : FieldElement
  timestamp : Int
deriving DecidableEq, Repr

/-- The zero-knowledge proof bundle. -/
structure ZKProof where
  polynomialCommitment : Bytes
  evaluationProofs : List MerkleProof
  challenge : FieldElement
  response : List FieldElement
deriving DecidableEq, Repr

/-- The full stealth proof returned by `generateProof`. -/
structure StealthProof where
  commitment : Bytes
  merkleProof : MerkleProof
  zkProof : ZKProof
  publicInput : List FieldElement
deriving DecidableEq, Repr

/-- The mutable state of an `X402StealthPayment` instance. -/
structure X402State where
  stealthPayments : List StealthPayment
  merkleTree : Option MerkleTree
deriving DecidableEq, Repr

namespace X402StealthPayment

/-- A fresh instance: no payments, no tree. -/
def init : X402State := ⟨[], none⟩

/-- `validateStealthAddress` (src/core/validation.ts): `ValidationError`
unless the address is exactly 32 bytes. -/
def stealthAddressOk (addr : Bytes) : Bool := addr.length == 32

/-- The 8 big-endian bytes `setBigUint64` writes for the timestamp (wrapping
modulo `2^64`; the ledger validates `timestamp ≥ 0` first). -/
def timestampBytes (timestamp : Int) : Bytes :=
  (List.range 8).map (fun i => timestamp.toNat % 2 ^ 64 / 2 ^ (8 * (7 - i)) % 256)

/-- The record construction shared by `createPayment` and
`createBatchPayments` (the source spells it out twice, identically):
`commitment = H(stealthAddress ‖ amount.toBytes() ‖ timestamp-be-8)`. -/
def mkStealthPayment (hash : Bytes → Bytes) (addr : Bytes) (amount timestamp : Int) :
    StealthPayment :=
  let amountField := FieldElement.make amount SHADOW_PRIME
  let commitmentData := addr ++ amountField.toBytes ++ timestampBytes timestamp
  ⟨hash commitmentData, addr, amountField, timestamp⟩

/-- `rebuildMerkleTree()`: the tree over all current commitments. -/
def rebuildMerkleTree (hash : Bytes → Bytes) (payments : List StealthPayment) : MerkleTree :=
  MerkleTree.makeWith hash (payments.map (fun p => p.commitment))

/-- `createPayment(stealthAddress, amount, timestamp)`; the default-argument
timestamp `Date.now()` is passed explicitly. Returns the thrown error or the
new record, together with the (possibly updated) instance state. -/
def createPaymentWith (hash : Bytes → Bytes) (st : X402State) (addr : Bytes)
    (amount timestamp : Int) : Except Err StealthPayment × X402State :=
  if ¬ stealthAddressOk addr then (.error .validationErr, st)
  else if amount < 1 then (.error .validationErr, st)
  else if timestamp < 0 then (.error .validationErr, st)
  else
    let payment := mkStealthPayment hash addr amount timestamp
    let payments := st.stealthPayments ++ [payment]
    (.ok payment, ⟨payments, some (rebuildMerkleTree hash payments)⟩)

/-- The per-item loop of `createBatchPayments`: validate, construct, append;
on the first invalid item the error propagates with the already-appended
records kept and no tree rebuild. -/
def batchGo (hash : Bytes → Bytes) :
    List (Bytes × Int × Int) → X402State → List StealthPayment →
    Except Err (List StealthPayment) × X402State
  | [], st, acc => (.ok acc, st)
  | (addr, amount, timestamp) :: rest, st, acc =>
    if ¬ stealthAddressOk addr then (.error .validationErr, st)
    else if amount < 1 then (.error .validationErr, st)
    else if timestamp < 0 then (.error .validationErr, st)
    else
      let payment := mkStealthPayment hash addr amount timestamp
      batchGo hash rest ⟨st.stealthPayments ++ [payment], st.merkleTree⟩ (acc ++ [payment])

/-- `createBatchPayments(payments)`: empty list rejected; one tree rebuild
after all insertions succeed. -/
def createBatchPaymentsWith (hash : Bytes → Bytes) (st : X402State)
    (items : List (Bytes × Int × Int)) : Except Err (List StealthPayment) × X402State :=
  if items.length = 0 then (.error .validationErr, st)
  else
    match batchGo hash items st [] with
    | (.ok created, st1) =>
      (.ok created, ⟨st1.stealthPayments, some (rebuildMerkleTree hash st1.stealthPayments)⟩)
    | (.error e, st1) => (.error e, st1)

/-- The Fiat-Shamir challenge `H(polynomialCommitment ‖ publicInput bytes)`
reduced modulo `SHADOW_PRIME`. The hex round trip `slice(0, 64)` keeps the
first 32 bytes of the digest. -/
def challengeOf (hash : Bytes → Bytes) (polynomialCommitment : Bytes)
    (publicInput : List FieldElement) : FieldElement :=
  let challengeData :=
    polynomialCommitment ++ (publicInput.map (fun i => i.toBytes)).flatten
  let hashBytes := hash challengeData
  FieldElement.make
    ((Int.ofNat (FieldElement.bytesToNat (hashBytes.take 32))).tmod SHADOW_PRIME)
    SHADOW_PRIME

/-- The trace sequence of `generateZKProof`: amount, timestamp as a field
element, then the public inputs. -/
def zkTrace (payment : StealthPayment) (publicInput : List FieldElement) :
    List FieldElement :=
  payment.amount :: FieldElement.make payment.timestamp SHADOW_PRIME :: publicInput

/-- The interpolation points `(i, trace[i])` of `generateZKProof`. -/
def zkPoints (payment : StealthPayment) (publicInput : List FieldElement) :
    List (FieldElement × FieldElement) :=
  (List.range (zkTrace payment publicInput).length).map
    (fun (i : Nat) => (FieldElement.make (i : Int) SHADOW_PRIME,
      (zkTrace payment publicInput).getD i (FieldElement.zeroF SHADOW_PRIME)))

/-- The 8 evaluations of the interpolated trace polynomial at the drawn
random points (each draw consumes 32 bytes at `SHADOW_PRIME`). -/
def zkEvaluations (payment : StealthPayment) (publicInput : List FieldElement)
    (stream : List Nat) : List FieldElement :=
  (List.range 8).map
    (fun i => (Polynomial.interpolateAux (zkPoints payment publicInput)).evaluate
      (FieldElement.random SHADOW_PRIME (stream.drop (32 * i))))

/-- The second Merkle tree, over the byte encodings of the 8 evaluations. -/
def zkEvalTree (hash : Bytes → Bytes) (payment : StealthPayment)
    (publicInput : List FieldElement) (stream : List Nat) : MerkleTree :=
  MerkleTree.makeWith hash
    ((zkEvaluations payment publicInput stream).map (fun e => e.toBytes))

/-- `generateZKProof(payment, publicInput)`, as a function of the CSPRNG
stream: interpolate the trace, evaluate at 8 drawn points, commit to the
evaluations in a second tree, and answer the fixed queries `{0, 2, 4, 6}`
(all in range of the 8 leaves). -/
def generateZKProofWith (hash : Bytes → Bytes) (payment : StealthPayment)
    (publicInput : List FieldElement) (stream : List Nat) : ZKProof :=
  ⟨(zkEvalTree hash payment publicInput stream).getRoot.getD [],
   [0, 2, 4, 6].map
     (fun i => (zkEvalTree hash payment publicInput stream).getProofUnchecked i),
   challengeOf hash ((zkEvalTree hash payment publicInput stream).getRoot.getD [])
     publicInput,
   [0, 2, 4, 6].map (fun i => (zkEvaluations payment publicInput stream).getD i
     (FieldElement.zeroF SHADOW_PRIME))⟩

/-- `generateProof(paymentIndex, publicInput)` (a negative JS index fails the
same range check). -/
def generateProofWith (hash : Bytes → Bytes) (st : X402State) (paymentIndex : Nat)
    (publicInput : List FieldElement) (stream : List Nat) : Except Err StealthProof :=
  if paymentIndex ≥ st.stealthPayments.length then .error .proofErr
  else
    match st.merkleTree with
    | none => .error .proofErr
    | some tree =>
      let payment := st.stealthPayments.getD paymentIndex
        ⟨[], [], FieldElement.zeroF SHADOW_PRIME, 0⟩
      match tree.getProofWith hash paymentIndex with
      | .error e => .error e
      | .ok merkleProof =>
        .ok ⟨payment.commitment, merkleProof,
             generateZKProofWith hash payment publicInput stream, publicInput⟩

/-- `verifyZKProof(zkProof, publicInput)`: every evaluation proof must
self-verify and the challenge must match its recomputation. Note that
`zkProof.response` is never examined. -/
def verifyZKProofWith (hash : Bytes → Bytes) (zk : ZKProof)
    (publicInput : List FieldElement) : Bool :=
  zk.evaluationProofs.all (fun p => p.verifyWith hash) &&
  zk.challenge.equals (challengeOf hash zk.polynomialCommitment publicInput)

/-- `verifyProof(proof, expectedRoot)`: inclusion proof self-verifies, its
root equals `expectedRoot` byte for byte, and the ZK checks pass. Note that
`proof.commitment` is never examined. -/
def verifyProofWith (hash : Bytes → Bytes) (proof : StealthProof)
    (expectedRoot : Bytes) : Bool :=
  proof.merkleProof.verifyWith hash &&
  proof.merkleProof.root == expectedRoot &&
  verifyZKProofWith hash proof.zkProof proof.publicInput

/-- `getRoot()`. -/
def getRoot (st : X402State) : Option Bytes :=
  st.merkleTree.bind MerkleTree.getRoot

/-- `getPaymentCount()`. -/
def getPaymentCount (st : X402State) : Nat := st.stealthPayments.length

/-- `getPayment(index)`: absent rather than an error when out of range. -/
def getPayment (st : X402State) (index : Nat) : Option StealthPayment :=
  st.stealthPayments[index]?

end X402StealthPayment

/-! ## Merkle correctness lemmas -/

namespace MerkleTree

theorem nextLevel_length (hash : Bytes → Bytes) (lvl : List Bytes) :
    (nextLevel hash lvl).length = (lvl.length + 1) / 2 := by
  simp [nextLevel]

theorem nextLevel_getD (hash : Bytes → Bytes) (lvl : List Bytes) (j : Nat)
    (hj : j < (lvl.length + 1) / 2) :
    (nextLevel hash lvl).getD j [] =
      hash (lvl.getD (2 * j) [] ++
        (if 2 * j + 1 < lvl.length then lvl.getD (2 * j + 1) [] else lvl.getD (2 * j) [])) := by
  simp [nextLevel, List.getD_eq_getElem?_getD, List.getElem?_map, List.getElem?_range, hj]

/-- One verification step starting from position `i` of a level of size at
least 2, with the sibling `getProof` collects there, lands on position `i / 2`
of the next level. -/
theorem verifyStep_collect (hash : Bytes → Bytes) (lvl : List Bytes) (i : Nat)
    (hi : i < lvl.length) :
    MerkleProof.verifyStep hash (lvl.getD i [], i)
      (if (if i % 2 = 0 then i + 1 else i - 1) < lvl.length
       then lvl.getD (if i % 2 = 0 then i + 1 else i - 1) []
       else lvl.getD i []) =
    ((nextLevel hash lvl).getD (i / 2) [], i / 2) := by
  have hj : i / 2 < (lvl.length + 1) / 2 := by omega
  rw [nextLevel_getD hash lvl (i / 2) hj]
  rcases Nat.even_or_odd i with he | ho
  · have hmod : i % 2 = 0 := Nat.even_iff.mp he
    have hdiv : 2 * (i / 2) = i := by omega
    rw [hdiv]
    by_cases hlast : i + 1 < lvl.length
    · simp [MerkleProof.verifyStep, hmod, hlast]
    · simp [MerkleProof.verifyStep, hmod, hlast]
  · have hmod : i % 2 = 1 := Nat.odd_iff.mp ho
    have hdiv : 2 * (i / 2) = i - 1 := by omega
    have hone : i - 1 + 1 = i := by omega
    rw [hdiv, hone]
    have hsib : i - 1 < lvl.length := by omega
    simp [MerkleProof.verifyStep, hmod, hsib, hi]

/-- The level-by-level invariant: walking the collected siblings from any
in-range position of the bottom level reaches the sole element of the last
level. -/
theorem collect_foldl (hash : Bytes → Bytes) :
    ∀ (fuel : Nat) (lvl : List Bytes) (i : Nat), i < lvl.length → lvl.length ≤ fuel + 1 →
    ∃ root,
      (lvl :: buildLevelsGo hash fuel lvl).getLast? = some [root] ∧
      ((collectSiblings (lvl :: buildLevelsGo hash fuel lvl) i).foldl
        (MerkleProof.verifyStep hash) (lvl.getD i [], i)).1 = root := by
  intro fuel
  induction fuel with
  | zero =>
    intro lvl i hi hlen
    have h1 : lvl.length = 1 := by omega
    have h0 : i = 0 := by omega
    obtain ⟨x, hx⟩ : ∃ x, lvl = [x] := by
      match lvl, h1 with
      | [x], _ => exact ⟨x, rfl⟩
    subst hx h0
    exact ⟨x, by simp [buildLevelsGo, collectSiblings]⟩
  | succ fuel ih =>
    intro lvl i hi hlen
    by_cases h2 : 1 < lvl.length
    · have hbuild : buildLevelsGo hash (fuel + 1) lvl =
          nextLevel hash lvl :: buildLevelsGo hash fuel (nextLevel hash lvl) := by
        simp [buildLevelsGo, h2]
      have hnlen : (nextLevel hash lvl).length = (lvl.length + 1) / 2 :=
        nextLevel_length hash lvl
      have hi2 : i / 2 < (nextLevel hash lvl).length := by omega
      have hlen2 : (nextLevel hash lvl).length ≤ fuel + 1 := by omega
      obtain ⟨root, hlast, hfold⟩ := ih (nextLevel hash lvl) (i / 2) hi2 hlen2
      refine ⟨root, ?_, ?_⟩
      · rw [hbuild]
        rw [List.getLast?_cons_cons]
        exact hlast
      · rw [hbuild]
        show ((collectSiblings
            (lvl :: nextLevel hash lvl :: buildLevelsGo hash fuel (nextLevel hash lvl)) i).foldl
            (MerkleProof.verifyStep hash) (lvl.getD i [], i)).1 = root
        rw [collectSiblings]
        rw [List.foldl_cons]
        rw [verifyStep_collect hash lvl i hi]
        exact hfold
    · have h1 : lvl.length = 1 := by omega
      have h0 : i = 0 := by omega
      obtain ⟨x, hx⟩ : ∃ x, lvl = [x] := by
        match lvl, h1 with
        | [x], _ => exact ⟨x, rfl⟩
      subst hx h0
      exact ⟨x, by simp [buildLevelsGo, collectSiblings]⟩

/-- A single-leaf tree's root is the leaf itself (the build loop never runs). -/
theorem makeWith_single_getRoot (hash : Bytes → Bytes) (x : Bytes) :
    (makeWith hash [x]).getRoot = some x := rfl

/-- For a nonempty leaf list and in-range index, `getProof` succeeds and the
returned proof verifies, for every hash function. -/
theorem getProof_verifies (hash : Bytes → Bytes) (leaves : List Bytes) (i : Nat)
    (hi : i < leaves.length) :
    (makeWith hash leaves).getProofWith hash i =
        .ok ((makeWith hash leaves).getProofUnchecked i) ∧
      ((makeWith hash leaves).getProofUnchecked i).verifyWith hash = true := by
  obtain ⟨root, hlast, hfold⟩ :=
    collect_foldl hash leaves.length leaves i hi (by omega)
  constructor
  · have hnot : ¬ i ≥ (makeWith hash leaves).leaves.length := by
      simp only [makeWith]
      omega
    rw [getProofWith, if_neg hnot]
  · have hroot : (makeWith hash leaves).getRoot = some root := by
      simp only [getRoot, makeWith, hlast]
      rfl
    simp only [MerkleProof.verifyWith, getProofUnchecked, makeWith, hroot]
    have hroot2 : ({ leaves := leaves, tree := leaves :: buildLevelsGo hash leaves.length leaves } :
        MerkleTree).getRoot = some root := hroot
    rw [hroot2, hfold]
    simp

end MerkleTree

/-! ## Ledger correctness lemmas -/

namespace FieldElement

/-- `equals` is reflexive. -/
theorem equals_self (a : FieldElement) : a.equals a = true := by
  simp [equals]

end FieldElement

namespace X402StealthPayment

/-- A successful `createPayment` run, for every hash function. -/
theorem createPayment_ok (hash : Bytes → Bytes) (st : X402State) (addr : Bytes)
    (amount timestamp : Int) (h32 : addr.length = 32) (hamt : 1 ≤ amount)
    (hts : 0 ≤ timestamp) :
    createPaymentWith hash st addr amount timestamp =
      (.ok (mkStealthPayment hash addr amount timestamp),
       ⟨st.stealthPayments ++ [mkStealthPayment hash addr amount timestamp],
        some (rebuildMerkleTree hash
          (st.stealthPayments ++ [mkStealthPayment hash addr amount timestamp]))⟩) := by
  rw [createPaymentWith]
  rw [if_neg (by simp [stealthAddressOk, h32]), if_neg (by omega), if_neg (by omega)]

/-- The ZK bundle produced by `generateZKProof` always passes `verifyZKProof`,
for every hash function and random stream: its four evaluation sub-proofs are
honest proofs in the 8-leaf evaluation tree, and the challenge is recomputed
from the same commitment and public inputs. -/
theorem generateZK_verifies (hash : Bytes → Bytes) (payment : StealthPayment)
    (publicInput : List FieldElement) (stream : List Nat) :
    verifyZKProofWith hash (generateZKProofWith hash payment publicInput stream)
      publicInput = true := by
  have h8 : ((zkEvaluations payment publicInput stream).map
      (fun e => e.toBytes)).length = 8 := by
    simp [zkEvaluations]
  have hv : ∀ i, i < 8 →
      ((zkEvalTree hash payment publicInput stream).getProofUnchecked i).verifyWith hash
        = true := by
    intro i hi
    exact (MerkleTree.getProof_verifies hash _ i (by rw [h8]; exact hi)).2
  rw [verifyZKProofWith, generateZKProofWith]
  simp only [List.map_cons, List.map_nil, List.all_cons, List.all_nil]
  rw [hv 0 (by norm_num), hv 2 (by norm_num), hv 4 (by norm_num), hv 6 (by norm_num),
    FieldElement.equals_self]
  rfl

/-- The full single-payment scenario, for every hash function: a fresh ledger
takes one valid payment; `generateProof(0, publicInput)` succeeds; the root is
the payment's commitment (single leaf); and `verifyProof` accepts the bundle
against that root no matter what its `commitment` field or its `response`
list hold, because it never reads either. -/
theorem single_payment_proof_spec (hash : Bytes → Bytes) (addr : Bytes)
    (amount timestamp : Int) (publicInput : List FieldElement) (stream : List Nat)
    (h32 : addr.length = 32) (hamt : 1 ≤ amount) (hts : 0 ≤ timestamp) :
    ∃ payment st1 proof,
      createPaymentWith hash init addr amount timestamp = (.ok payment, st1) ∧
      payment = mkStealthPayment hash addr amount timestamp ∧
      generateProofWith hash st1 0 publicInput stream = .ok proof ∧
      getRoot st1 = some payment.commitment ∧
      proof.commitment = payment.commitment ∧
      proof.merkleProof = ⟨payment.commitment, [], 0, payment.commitment⟩ ∧
      proof.zkProof = generateZKProofWith hash payment publicInput stream ∧
      proof.publicInput = publicInput ∧
      proof.zkProof.response.length = 4 ∧
      ∀ (c2 : Bytes) (r2 : List FieldElement),
        verifyProofWith hash
          ⟨c2, proof.merkleProof,
           ⟨proof.zkProof.polynomialCommitment, proof.zkProof.evaluationProofs,
            proof.zkProof.challenge, r2⟩, proof.publicInput⟩
          payment.commitment = true := by
  have hcp := createPayment_ok hash init addr amount timestamp h32 hamt hts
  set payment := mkStealthPayment hash addr amount timestamp with hpay
  set st1 : X402State :=
    ⟨[payment], some (rebuildMerkleTree hash [payment])⟩ with hst1
  have htree : rebuildMerkleTree hash [payment] =
      MerkleTree.makeWith hash [payment.commitment] := rfl
  have hroot : getRoot st1 = some payment.commitment := by
    rw [hst1, getRoot]
    show (rebuildMerkleTree hash [payment]).getRoot = some payment.commitment
    rw [htree, MerkleTree.makeWith_single_getRoot]
  have hmp : (MerkleTree.makeWith hash [payment.commitment]).getProofUnchecked 0 =
      ⟨payment.commitment, [], 0, payment.commitment⟩ := rfl
  have hgen : generateProofWith hash st1 0 publicInput stream =
      .ok ⟨payment.commitment, ⟨payment.commitment, [], 0, payment.commitment⟩,
           generateZKProofWith hash payment publicInput stream, publicInput⟩ := rfl
  refine ⟨payment, st1, _, ?_, hpay, hgen, hroot, rfl, rfl, rfl, rfl,
    by simp [generateZKProofWith], ?_⟩
  · rw [hcp]
    rfl
  · intro c2 r2
    rw [verifyProofWith]
    have hver : (⟨payment.commitment, [], 0, payment.commitment⟩ :
        MerkleProof).verifyWith hash = true := by
      rw [← hmp]
      exact (MerkleTree.getProof_verifies hash [payment.commitment] 0 (by simp)).2
    simp only [hver]
    have hzk : verifyZKProofWith hash
        ⟨(generateZKProofWith hash payment publicInput stream).polynomialCommitment,
         (generateZKProofWith hash payment publicInput stream).evaluationProofs,
         (generateZKProofWith hash payment publicInput stream).challenge, r2⟩
        publicInput = true := by
      rw [show (⟨(generateZKProofWith hash payment publicInput stream).polynomialCommitment,
         (generateZKProofWith hash payment publicInput stream).evaluationProofs,
         (generateZKProofWith hash payment publicInput stream).challenge, r2⟩ : ZKProof) =
          { generateZKProofWith hash payment publicInput stream with response := r2 }
        from rfl]
      have : verifyZKProofWith hash
          { generateZKProofWith hash payment publicInput stream with response := r2 }
          publicInput =
          verifyZKProofWith hash (generateZKProofWith hash payment publicInput stream)
            publicInput := rfl
      rw [this]
      exact generateZK_verifies hash payment publicInput stream
    simp [hzk]

end X402StealthPayment

end Shadow

/-! ## Claims about the Merkle tree -/

/-- C2: for every non-empty sequence of byte-string leaves and every index
`i` with `0 ≤ i < leafCount`, the proof returned by
`new MerkleTree(leaves).getProof(i)` satisfies `verify() = true`, including at
odd-length levels where the unpaired last node is paired with itself. -/
theorem claim_C2_getProof_verifies (leaves : List Bytes) (i : Nat)
    (hne : leaves ≠ []) (hi : i < leaves.length) :
    ∃ p, (Shadow.MerkleTree.makeWith sha256 leaves).getProofWith sha256 i = .ok p ∧
      p.verify = true := by
  obtain ⟨hok, hver⟩ := Shadow.MerkleTree.getProof_verifies sha256 leaves i hi
  exact ⟨_, hok, hver⟩

/-- Witness for C2 at the concrete three-leaf (odd-length) tree and its last
index, whose sibling path involves self-pairing. -/
theorem claim_C2_witness :
    ([[1], [2], [3]] : List Bytes) ≠ [] ∧ 2 < ([[1], [2], [3]] : List Bytes).length ∧
    ∃ p, (Shadow.MerkleTree.makeWith sha256 [[1], [2], [3]]).getProofWith sha256 2 = .ok p ∧
      p.verify = true :=
  ⟨by decide, by decide,
   claim_C2_getProof_verifies [[1], [2], [3]] 2 (by decide) (by decide)⟩

/-- C10: a `MerkleProof` with an empty siblings list verifies exactly when its
leaf equals its root byte-for-byte, whatever its index; in particular
`new MerkleProof(r, [], 0, r).verify()` is `true` for every byte string `r`,
so a trivially forged empty-path proof verifies against any chosen root. -/
theorem claim_C10_empty_path_forgery :
    (∀ (leaf root : Bytes) (index : Nat),
      (Shadow.MerkleProof.mk leaf [] index root).verify = true ↔ leaf = root) ∧
    ∀ r : Bytes, (Shadow.MerkleProof.mk r [] 0 r).verify = true := by
  constructor
  · intro leaf root index
    simp [Shadow.MerkleProof.verify, Shadow.MerkleProof.verifyWith]
  · intro r
    simp [Shadow.MerkleProof.verify, Shadow.MerkleProof.verifyWith]

/-- C3: the code disagrees with its own test "should handle single leaf"
(the repository's merkle test file, lines 65-74): for the single leaf
`[1, 2, 3]` the tree's root is the leaf itself, unhashed, whereas the test
(and the claim) expect the 32-byte digest `sha256([1, 2, 3])`, which cannot
equal the 3-byte leaf. The empty-tree half of the claim does hold: no root. -/
theorem claim_C3_single_leaf_root_unhashed :
    (Shadow.MerkleTree.makeWith sha256 [([1, 2, 3] : Bytes)]).getRoot = some [1, 2, 3] ∧
    (Shadow.MerkleTree.makeWith sha256 ([] : List Bytes)).getRoot = none ∧
    sha256 [1, 2, 3] ≠ [1, 2, 3] := by
  refine ⟨rfl, rfl, ?_⟩
  intro h
  have hlen := congrArg List.length h
  rw [sha256_length] at hlen
  simp at hlen

/-! ## Claims about FieldElement serialisation and randomness -/

/-- Base-256 place-value decomposition of a modulus. -/
theorem mod_mul_base (n M : Nat) (hM : 0 < M) :
    n % (256 * M) = 256 * (n / 256 % M) + n % 256 := by
  conv_lhs => rw [← Nat.div_add_mod n 256]
  rw [Nat.add_mod, Nat.mul_mod_mul_left]
  have h1 : n % 256 % (256 * M) = n % 256 :=
    Nat.mod_eq_of_lt (lt_of_lt_of_le (Nat.mod_lt n (by norm_num)) (by nlinarith))
  rw [h1]
  have h2 : 256 * (n / 256 % M) + n % 256 < 256 * M := by
    have := Nat.mod_lt (n / 256) hM
    have := Nat.mod_lt n (show 0 < 256 by norm_num)
    nlinarith
  exact Nat.mod_eq_of_lt h2

/-- Reading back the `k` big-endian base-256 digits of `n` gives `n % 256^k`. -/
theorem bytesToNat_digits :
    ∀ (k n : Nat),
      Shadow.FieldElement.bytesToNat
        ((List.range k).map (fun i => n / 256 ^ (k - 1 - i) % 256)) = n % 256 ^ k := by
  intro k
  induction k with
  | zero => intro n; simp [Shadow.FieldElement.bytesToNat, Nat.mod_one]
  | succ k ih =>
    intro n
    rw [List.range_succ, List.map_append]
    have hmap : (List.range k).map (fun i => n / 256 ^ (k + 1 - 1 - i) % 256) =
        (List.range k).map (fun i => n / 256 / 256 ^ (k - 1 - i) % 256) := by
      apply List.map_congr_left
      intro i hi
      have hik : i < k := List.mem_range.mp hi
      have hexp : k + 1 - 1 - i = (k - 1 - i) + 1 := by omega
      rw [hexp, pow_succ, ← Nat.div_div_eq_div_mul, Nat.div_div_eq_div_mul, mul_comm,
        ← Nat.div_div_eq_div_mul]
    rw [hmap]
    simp only [Shadow.FieldElement.bytesToNat, List.foldl_append, List.map_cons,
      List.map_nil, List.foldl_cons, List.foldl_nil]
    have hlast : k + 1 - 1 - k = 0 := by omega
    rw [hlast]
    have hih := ih (n / 256)
    simp only [Shadow.FieldElement.bytesToNat] at hih
    rw [hih]
    have hdecomp := mod_mul_base n (256 ^ k) (Nat.pos_pow_of_pos k (by norm_num))
    have hpow : (256 : Nat) ^ (k + 1) = 256 * 256 ^ k := by ring
    rw [hpow, hdecomp]
    simp [Nat.mul_comm]

/-- C9: for every field element with in-range value (under a modulus within
the documented 251-bit budget — any modulus up to `2^256` works),
`fromBytes(a.toBytes())` equals `a`; and `toBytes` always emits exactly 32
bytes, holding the value in big-endian order, regardless of modulus width. -/
theorem claim_C9_bytes_roundtrip :
    (∀ a : Shadow.FieldElement, a.toBytes.length = 32) ∧
    (∀ a : Shadow.FieldElement,
      Shadow.FieldElement.bytesToNat a.toBytes = a.value.toNat % 2 ^ 256) ∧
    ∀ a : Shadow.FieldElement, 0 ≤ a.value → a.value < a.modulus →
      a.modulus ≤ 2 ^ 256 → Shadow.FieldElement.fromBytes a.toBytes a.modulus = a := by
  have hbytes : ∀ a : Shadow.FieldElement,
      Shadow.FieldElement.bytesToNat a.toBytes = a.value.toNat % 2 ^ 256 := by
    intro a
    have hmap : a.toBytes = (List.range 32).map
        (fun i => a.value.toNat / 256 ^ (32 - 1 - i) % 256) := by
      apply List.map_congr_left
      intro i hi
      have : 31 - i = 32 - 1 - i := by omega
      rw [this]
    rw [hmap, bytesToNat_digits]
    norm_num
  refine ⟨fun a => by simp [Shadow.FieldElement.toBytes], hbytes, ?_⟩
  intro a h0 hlt hmod
  have hsmall : a.value.toNat % 2 ^ 256 = a.value.toNat := by
    apply Nat.mod_eq_of_lt
    have : a.value < 2 ^ 256 := lt_of_lt_of_le hlt hmod
    omega
  rw [Shadow.FieldElement.fromBytes, hbytes, hsmall]
  have hval : (a.value.toNat : Int) = a.value := by omega
  rw [hval, Shadow.FieldElement.make, if_neg (by omega)]

/-- Witness for C9 at the concrete element `5 mod 7`. -/
theorem claim_C9_witness :
    0 ≤ (Shadow.FieldElement.mk 5 7).value ∧
    (Shadow.FieldElement.mk 5 7).value < (Shadow.FieldElement.mk 5 7).modulus ∧
    (Shadow.FieldElement.mk 5 7).modulus ≤ 2 ^ 256 ∧
    Shadow.FieldElement.fromBytes (Shadow.FieldElement.mk 5 7).toBytes 7 =
      Shadow.FieldElement.mk 5 7 :=
  ⟨by decide, by decide, by norm_num,
   claim_C9_bytes_roundtrip.2.2 (Shadow.FieldElement.mk 5 7)
     (by decide) (by decide) (by norm_num)⟩

/-- C6 counterexample: `random` is not the rejection-sampling procedure. With
modulus 2 the draw is one byte; on the stream `[255, 0]` the code reduces the
out-of-range draw 255 modulo 2 and returns 1, while rejection sampling
discards 255 and returns the next draw, 0. -/
theorem claim_C6_counterexample :
    Shadow.FieldElement.random 2 [255, 0] = Shadow.FieldElement.mk 1 2 ∧
    Shadow.FieldElement.randomRejection 2 2 [255, 0] =
      some (Shadow.FieldElement.mk 0 2) ∧
    Shadow.FieldElement.random 2 [255, 0] ≠ Shadow.FieldElement.mk 0 2 := by
  refine ⟨by decide, by decide, by decide⟩

/-- C6 (amended): `random(modulus)` performs a single fixed-length draw from
the CSPRNG stream and reduces it modulo the modulus (so its value always lies
in `[0, modulus)`); it agrees with the rejection-sampling reference procedure
exactly when that first draw is already in range. -/
theorem claim_C6_random_single_draw (modulus : Int) (stream : List Nat) (fuel : Nat)
    (hm : 1 < modulus)
    (hlt : (Shadow.FieldElement.drawValue modulus stream : Int) < modulus) :
    Shadow.FieldElement.randomRejection modulus (fuel + 1) stream =
      some (Shadow.FieldElement.random modulus stream) ∧
    0 ≤ (Shadow.FieldElement.random modulus stream).value ∧
    (Shadow.FieldElement.random modulus stream).value < modulus := by
  have h0 : (0 : Int) ≤ (Shadow.FieldElement.drawValue modulus stream : Int) :=
    Int.ofNat_nonneg _
  have hrand : Shadow.FieldElement.random modulus stream =
      Shadow.FieldElement.make (Shadow.FieldElement.drawValue modulus stream : Int)
        modulus := by
    rw [Shadow.FieldElement.random]
    congr 1
    have hsum : modulus - 1 + 1 = modulus := by ring
    rw [hsum, Int.tmod_eq_emod h0 (by omega), Int.emod_eq_of_lt h0 hlt]
  refine ⟨?_, ?_⟩
  · rw [Shadow.FieldElement.randomRejection, if_pos (by omega), hrand]
  · rw [hrand, Shadow.FieldElement.make, if_neg (by omega)]
    exact ⟨h0, hlt⟩

/-- Witness for C6 (amended) with modulus 5 and the single-byte stream `[3]`,
whose first draw is already in range. -/
theorem claim_C6_witness :
    (1 : Int) < 5 ∧ (Shadow.FieldElement.drawValue 5 [3] : Int) < 5 ∧
    (Shadow.FieldElement.randomRejection 5 (0 + 1) [3] =
        some (Shadow.FieldElement.random 5 [3]) ∧
      0 ≤ (Shadow.FieldElement.random 5 [3]).value ∧
      (Shadow.FieldElement.random 5 [3]).value < 5) :=
  ⟨by decide, by decide, claim_C6_random_single_draw 5 [3] 0 (by decide) (by decide)⟩

/-! ## Claims about Polynomial construction -/

/-- The normalised value of `FieldElement.zero(m)` is 0 for every modulus. -/
theorem zeroF_value (m : Int) : (Shadow.FieldElement.zeroF m).value = 0 := by
  rw [Shadow.FieldElement.zeroF, Shadow.FieldElement.make]
  split_ifs
  · show (Shadow.FieldElement.jsMod 0 m) = 0
    simp [Shadow.FieldElement.jsMod, Int.zero_tmod, Int.tmod_self]
  · rfl

/-- What `dropWhile` keeps never starts with a satisfying element. -/
theorem dropWhile_head_not (p : Shadow.FieldElement → Bool) :
    ∀ l : List Shadow.FieldElement,
      l.dropWhile p = [] ∨
        ∃ c rest, l.dropWhile p = c :: rest ∧ p c = false := by
  intro l
  induction l with
  | nil => exact Or.inl rfl
  | cons x xs ih =>
    by_cases hx : p x
    · rw [List.dropWhile_cons_of_pos hx]
      exact ih
    · rw [List.dropWhile_cons_of_neg hx]
      exact Or.inr ⟨x, xs, rfl, by simpa using hx⟩

/-- C5 counterexample: the constructor trims the single zero coefficient too,
so `Polynomial.zero(7)` is represented by the empty coefficient list and has
`degree() = -1`, not by `[0]` with degree 0 as claimed. -/
theorem claim_C5_counterexample :
    (Shadow.Polynomial.zero 7).coefficients = [] ∧
    (Shadow.Polynomial.zero 7).degree = -1 ∧
    ¬ (Shadow.Polynomial.zero 7).degree = 0 := by
  refine ⟨by decide, by decide, by decide⟩

/-- C5 (amended): every constructed polynomial has no trailing (highest
degree) zero coefficients — an all-zero input, including the `[0]` that
`Polynomial.zero` passes, trims to the empty list — and `degree()` equals the
coefficient-list length minus 1, so the zero polynomial has degree `-1`. -/
theorem claim_C5_no_trailing_zeros (l : List Shadow.FieldElement) (m : Int) :
    ((Shadow.Polynomial.make l).coefficients = [] ∨
      ∃ c, (Shadow.Polynomial.make l).coefficients.getLast? = some c ∧
        c.isZero = false) ∧
    (Shadow.Polynomial.make l).degree =
      ((Shadow.Polynomial.make l).coefficients.length : Int) - 1 ∧
    (Shadow.Polynomial.zero m).coefficients = [] ∧
    (Shadow.Polynomial.zero m).degree = -1 := by
  have hzero : (Shadow.Polynomial.zero m).coefficients = [] := by
    rw [Shadow.Polynomial.zero, Shadow.Polynomial.make, Shadow.Polynomial.trimTrailingZeros]
    have : (Shadow.FieldElement.zeroF m).isZero = true := by
      rw [Shadow.FieldElement.isZero]
      simp [zeroF_value m]
    simp [this]
  refine ⟨?_, rfl, hzero, ?_⟩
  · rw [Shadow.Polynomial.make, Shadow.Polynomial.trimTrailingZeros]
    rcases dropWhile_head_not (fun c => c.isZero) l.reverse with h | ⟨c, rest, h, hc⟩
    · exact Or.inl (by rw [h]; rfl)
    · refine Or.inr ⟨c, ?_, hc⟩
      show (l.reverse.dropWhile (fun c => c.isZero)).reverse.getLast? = some c
      rw [List.getLast?_reverse, h]
      rfl
  · rw [Shadow.Polynomial.degree, hzero]
    rfl

/-! ## Claims about the ledger -/

/-- C7: `createPayment` fails with `ValidationError` exactly when the
destination is not 32 bytes, the amount is below 1, or the timestamp is
negative, leaving the state untouched; otherwise it appends the committed
record, rebuilds the tree over all commitments, and returns the record. -/
theorem claim_C7_createPayment_validation (st : Shadow.X402State) (addr : Bytes)
    (amount timestamp : Int) :
    (addr.length ≠ 32 ∨ amount < 1 ∨ timestamp < 0 →
      Shadow.X402StealthPayment.createPaymentWith sha256 st addr amount timestamp =
        (.error .validationErr, st)) ∧
    (addr.length = 32 → 1 ≤ amount → 0 ≤ timestamp →
      Shadow.X402StealthPayment.createPaymentWith sha256 st addr amount timestamp =
        (.ok (Shadow.X402StealthPayment.mkStealthPayment sha256 addr amount timestamp),
         ⟨st.stealthPayments ++
            [Shadow.X402StealthPayment.mkStealthPayment sha256 addr amount timestamp],
          some (Shadow.X402StealthPayment.rebuildMerkleTree sha256
            (st.stealthPayments ++
              [Shadow.X402StealthPayment.mkStealthPayment sha256 addr amount timestamp]))⟩)) := by
  constructor
  · intro h
    rw [Shadow.X402StealthPayment.createPaymentWith]
    by_cases h1 : Shadow.X402StealthPayment.stealthAddressOk addr
    · have h32 : addr.length = 32 := by
        simpa [Shadow.X402StealthPayment.stealthAddressOk] using h1
      rw [if_neg (by simpa using h1)]
      rcases h with h | h | h
      · exact absurd h32 h
      · rw [if_pos h]
      · by_cases h2 : amount < 1
        · rw [if_pos h2]
        · rw [if_neg h2, if_pos h]
    · rw [if_pos (by simpa using h1)]
  · intro h32 hamt hts
    rw [Shadow.X402StealthPayment.createPaymentWith]
    rw [if_neg (by simp [Shadow.X402StealthPayment.stealthAddressOk, h32]),
      if_neg (by omega), if_neg (by omega)]

/-- Witness for C7: success on a 32-byte address with amount 1 and timestamp
0, and failure (with unchanged state) on a 31-byte address. -/
theorem claim_C7_witness :
    ((List.replicate 32 0 : Bytes).length = 32 ∧
      Shadow.X402StealthPayment.createPaymentWith sha256 Shadow.X402StealthPayment.init
          (List.replicate 32 0) 1 0 =
        (.ok (Shadow.X402StealthPayment.mkStealthPayment sha256 (List.replicate 32 0) 1 0),
         ⟨Shadow.X402StealthPayment.init.stealthPayments ++
            [Shadow.X402StealthPayment.mkStealthPayment sha256 (List.replicate 32 0) 1 0],
          some (Shadow.X402StealthPayment.rebuildMerkleTree sha256
            (Shadow.X402StealthPayment.init.stealthPayments ++
              [Shadow.X402StealthPayment.mkStealthPayment sha256 (List.replicate 32 0) 1 0]))⟩)) ∧
    ((List.replicate 31 0 : Bytes).length ≠ 32 ∧
      Shadow.X402StealthPayment.createPaymentWith sha256 Shadow.X402StealthPayment.init
          (List.replicate 31 0) 1 0 =
        (.error .validationErr, Shadow.X402StealthPayment.init)) :=
  ⟨⟨by decide,
    (claim_C7_createPayment_validation Shadow.X402StealthPayment.init
      (List.replicate 32 0) 1 0).2 (by decide) (by decide) (by decide)⟩,
   ⟨by decide,
    (claim_C7_createPayment_validation Shadow.X402StealthPayment.init
      (List.replicate 31 0) 1 0).1 (Or.inl (by decide))⟩⟩

/-- C1 (amended): for a ledger holding a single payment, `generateProof(0,
inputs)` followed by `verifyProof(proof, ledger.getRoot())` returns `true`;
but `verifyProof` never reads `proof.commitment` or the response values, so
replacing either by anything at all still returns `true` (the claimed
tamper-detection does not exist in the code). -/
theorem claim_C1_verifyProof_ignores_commitment_and_response
    (addr : Bytes) (amount timestamp : Int) (publicInput : List Shadow.FieldElement)
    (stream : List Nat) (h32 : addr.length = 32) (hamt : 1 ≤ amount)
    (hts : 0 ≤ timestamp) :
    ∃ payment st1 proof,
      Shadow.X402StealthPayment.createPaymentWith sha256 Shadow.X402StealthPayment.init
          addr amount timestamp = (.ok payment, st1) ∧
      Shadow.X402StealthPayment.generateProofWith sha256 st1 0 publicInput stream =
        .ok proof ∧
      Shadow.X402StealthPayment.getRoot st1 = some payment.commitment ∧
      Shadow.X402StealthPayment.verifyProofWith sha256 proof payment.commitment = true ∧
      (∀ c2 : Bytes,
        Shadow.X402StealthPayment.verifyProofWith sha256
          ⟨c2, proof.merkleProof, proof.zkProof, proof.publicInput⟩
          payment.commitment = true) ∧
      ∀ r2 : List Shadow.FieldElement,
        Shadow.X402StealthPayment.verifyProofWith sha256
          ⟨proof.commitment, proof.merkleProof,
           ⟨proof.zkProof.polynomialCommitment, proof.zkProof.evaluationProofs,
            proof.zkProof.challenge, r2⟩, proof.publicInput⟩
          payment.commitment = true := by
  obtain ⟨payment, st1, proof, hcp, hpay, hgen, hroot, hc, hm, hz, hp, hlen, hmut⟩ :=
    Shadow.X402StealthPayment.single_payment_proof_spec sha256 addr amount timestamp
      publicInput stream h32 hamt hts
  exact ⟨payment, st1, proof, hcp, hgen, hroot,
    hmut proof.commitment proof.zkProof.response,
    fun c2 => hmut c2 proof.zkProof.response,
    fun r2 => hmut proof.commitment r2⟩

/-- Witness for C1 (amended) on a fresh ledger, a zero 32-byte address,
amount 1, timestamp 0, no public inputs, and the empty random stream. -/
theorem claim_C1_witness :
    (List.replicate 32 0 : Bytes).length = 32 ∧ (1 : Int) ≤ 1 ∧ (0 : Int) ≤ 0 ∧
    ∃ payment st1 proof,
      Shadow.X402StealthPayment.createPaymentWith sha256 Shadow.X402StealthPayment.init
          (List.replicate 32 0) 1 0 = (.ok payment, st1) ∧
      Shadow.X402StealthPayment.generateProofWith sha256 st1 0 [] [] = .ok proof ∧
      Shadow.X402StealthPayment.getRoot st1 = some payment.commitment ∧
      Shadow.X402StealthPayment.verifyProofWith sha256 proof payment.commitment = true ∧
      (∀ c2 : Bytes,
        Shadow.X402StealthPayment.verifyProofWith sha256
          ⟨c2, proof.merkleProof, proof.zkProof, proof.publicInput⟩
          payment.commitment = true) ∧
      ∀ r2 : List Shadow.FieldElement,
        Shadow.X402StealthPayment.verifyProofWith sha256
          ⟨proof.commitment, proof.merkleProof,
           ⟨proof.zkProof.polynomialCommitment, proof.zkProof.evaluationProofs,
            proof.zkProof.challenge, r2⟩, proof.publicInput⟩
          payment.commitment = true :=
  ⟨by decide, by decide, by decide,
   claim_C1_verifyProof_ignores_commitment_and_response
     (List.replicate 32 0) 1 0 [] [] (by decide) (by decide) (by decide)⟩

/-- The post-insert state of the concrete single-payment run used by the C1
counterexample. -/
def c1RunState : Shadow.X402State :=
  (Shadow.X402StealthPayment.createPaymentWith sha256 Shadow.X402StealthPayment.init
    (List.replicate 32 0) 1 0).2

/-- Default bundle used only to extract a successful `generateProof` result
in closed statements. -/
def fallbackProof : Shadow.StealthProof :=
  ⟨[], ⟨[], [], 0, []⟩, ⟨[], [], Shadow.FieldElement.zeroF Shadow.SHADOW_PRIME, []⟩, []⟩

/-- The concrete proof bundle of the C1 counterexample run. -/
def c1RunProof : Shadow.StealthProof :=
  (Shadow.X402StealthPayment.generateProofWith sha256 c1RunState 0 [] []).toOption.getD
    fallbackProof

/-- The C1 counterexample's tampered bundle: the commitment and the response
list are both replaced outright (by `[]`). -/
def c1Mutated : Shadow.StealthProof :=
  ⟨[], c1RunProof.merkleProof,
   ⟨c1RunProof.zkProof.polynomialCommitment, c1RunProof.zkProof.evaluationProofs,
    c1RunProof.zkProof.challenge, []⟩, c1RunProof.publicInput⟩

/-- C1 counterexample: on a concrete single-payment ledger, replacing the
proof's commitment (32 bytes, so `[]` really changes it) and all response
values (4 of them) leaves `verifyProof` returning `true`, contradicting the
claim that any such mutation makes it return `false`. -/
theorem claim_C1_counterexample :
    c1RunProof.commitment ≠ ([] : Bytes) ∧
    c1RunProof.zkProof.response ≠ [] ∧
    c1Mutated.commitment = ([] : Bytes) ∧
    c1Mutated.zkProof.response = [] ∧
    Shadow.X402StealthPayment.verifyProofWith sha256 c1Mutated
      ((Shadow.X402StealthPayment.getRoot c1RunState).getD []) = true := by
  obtain ⟨payment, st1, proof, hcp, hpay, hgen, hroot, hc, hm, hz, hp, hlen, hmut⟩ :=
    Shadow.X402StealthPayment.single_payment_proof_spec sha256 (List.replicate 32 0) 1 0
      [] [] (by decide) (by decide) (by decide)
  have hst : c1RunState = st1 := by
    rw [c1RunState, hcp]
  have hproof : c1RunProof = proof := by
    rw [c1RunProof, hst, hgen]
    rfl
  have hclen : payment.commitment.length = 32 := by
    rw [hpay]
    exact sha256_length _
  refine ⟨?_, ?_, rfl, rfl, ?_⟩
  · rw [hproof, hc]
    intro h
    rw [h] at hclen
    simp at hclen
  · rw [hproof]
    intro h
    rw [h] at hlen
    simp at hlen
  · have hrootD : (Shadow.X402StealthPayment.getRoot c1RunState).getD [] =
        payment.commitment := by
      rw [hst, hroot]
      rfl
    have hmutEq : c1Mutated =
        ⟨[], proof.merkleProof,
         ⟨proof.zkProof.polynomialCommitment, proof.zkProof.evaluationProofs,
          proof.zkProof.challenge, []⟩, proof.publicInput⟩ := by
      rw [c1Mutated, hproof]
    rw [hrootD, hmutEq]
    exact hmut [] []

/-- The batch insertion loop never touches the Merkle tree: the rebuild
happens (once) only in `createBatchPayments` itself, after full success. -/
theorem batchGo_merkleTree (hash : Bytes → Bytes) :
    ∀ (items : List (Bytes × Int × Int)) (st : Shadow.X402State)
      (acc : List Shadow.StealthPayment),
      (Shadow.X402StealthPayment.batchGo hash items st acc).2.merkleTree = st.merkleTree := by
  intro items
  induction items with
  | nil => intro st acc; rfl
  | cons item rest ih =>
    intro st acc
    obtain ⟨addr, amount, timestamp⟩ := item
    rw [Shadow.X402StealthPayment.batchGo]
    by_cases h1 : Shadow.X402StealthPayment.stealthAddressOk addr
    · rw [if_neg (by simpa using h1)]
      by_cases h2 : amount < 1
      · rw [if_pos h2]
      · rw [if_neg h2]
        by_cases h3 : timestamp < 0
        · rw [if_pos h3]
        · rw [if_neg h3]
          exact ih _ _
    · rw [if_pos (by simpa using h1)]

/-- C4 counterexample: a batch whose second item has a 31-byte address fails
after appending its first (valid) payment, and the stored tree — still absent
from the fresh ledger — is not the tree over the stored commitments, so the
claimed invariant is false right after this `createBatchPayments` call. -/
theorem claim_C4_counterexample :
    (Shadow.X402StealthPayment.createBatchPaymentsWith sha256 Shadow.X402StealthPayment.init
        [(List.replicate 32 0, 1, 0), (List.replicate 31 0, 1, 0)]).1 =
      .error .validationErr ∧
    (Shadow.X402StealthPayment.createBatchPaymentsWith sha256 Shadow.X402StealthPayment.init
        [(List.replicate 32 0, 1, 0), (List.replicate 31 0, 1, 0)]).2.stealthPayments.length
      = 1 ∧
    (Shadow.X402StealthPayment.createBatchPaymentsWith sha256 Shadow.X402StealthPayment.init
        [(List.replicate 32 0, 1, 0), (List.replicate 31 0, 1, 0)]).2.merkleTree = none ∧
    (Shadow.X402StealthPayment.createBatchPaymentsWith sha256 Shadow.X402StealthPayment.init
        [(List.replicate 32 0, 1, 0), (List.replicate 31 0, 1, 0)]).2.merkleTree ≠
      some (Shadow.X402StealthPayment.rebuildMerkleTree sha256
        (Shadow.X402StealthPayment.createBatchPaymentsWith sha256 Shadow.X402StealthPayment.init
          [(List.replicate 32 0, 1, 0), (List.replicate 31 0, 1, 0)]).2.stealthPayments) := by
  refine ⟨rfl, rfl, rfl, ?_⟩
  intro h
  rw [show (Shadow.X402StealthPayment.createBatchPaymentsWith sha256
      Shadow.X402StealthPayment.init
      [(List.replicate 32 0, 1, 0), (List.replicate 31 0, 1, 0)]).2.merkleTree = none
    from rfl] at h
  exact Option.noConfusion h

/-- C4 (amended): after a successful `createPayment` or `createBatchPayments`
the stored tree is exactly the tree over the commitments of all stored
payments; a failed `createPayment` leaves the state unchanged; but a
`createBatchPayments` call that fails partway keeps its already-appended
payments while leaving the tree exactly as it was before the call (stale). -/
theorem claim_C4_tree_transactional (st : Shadow.X402State) (addr : Bytes)
    (amount timestamp : Int) (items : List (Bytes × Int × Int)) :
    (∀ p st1, Shadow.X402StealthPayment.createPaymentWith sha256 st addr amount timestamp =
        (.ok p, st1) →
      st1.merkleTree = some (Shadow.X402StealthPayment.rebuildMerkleTree sha256
        st1.stealthPayments)) ∧
    (∀ e st1, Shadow.X402StealthPayment.createPaymentWith sha256 st addr amount timestamp =
        (.error e, st1) → st1 = st) ∧
    (∀ created st1, Shadow.X402StealthPayment.createBatchPaymentsWith sha256 st items =
        (.ok created, st1) →
      st1.merkleTree = some (Shadow.X402StealthPayment.rebuildMerkleTree sha256
        st1.stealthPayments)) ∧
    (∀ e st1, Shadow.X402StealthPayment.createBatchPaymentsWith sha256 st items =
        (.error e, st1) → st1.merkleTree = st.merkleTree) := by
  refine ⟨?_, ?_, ?_, ?_⟩
  · intro p st1 h
    rw [Shadow.X402StealthPayment.createPaymentWith] at h
    split_ifs at h <;>
      first
        | (injection h with h1 h2; exact Except.noConfusion h1)
        | (injection h with h1 h2; rw [← h2])
  · intro e st1 h
    rw [Shadow.X402StealthPayment.createPaymentWith] at h
    split_ifs at h <;>
      first
        | (injection h with h1 h2; exact Except.noConfusion h1)
        | (injection h with h1 h2; rw [h2])
  · intro created st1 h
    rw [Shadow.X402StealthPayment.createBatchPaymentsWith] at h
    by_cases hempty : items.length = 0
    · rw [if_pos hempty] at h
      injection h with h1 h2
      exact Except.noConfusion h1
    · rw [if_neg hempty] at h
      split at h
      next created2 st2 heq =>
        injection h with h1 h2
        rw [← h2]
      next e2 st2 heq =>
        injection h with h1 h2
        exact Except.noConfusion h1
  · intro e st1 h
    rw [Shadow.X402StealthPayment.createBatchPaymentsWith] at h
    by_cases hempty : items.length = 0
    · rw [if_pos hempty] at h
      injection h with h1 h2
      rw [h2]
    · rw [if_neg hempty] at h
      split at h
      next created2 st2 heq =>
        injection h with h1 h2
        exact Except.noConfusion h1
      next e2 st2 heq =>
        injection h with h1 h2
        have htree := batchGo_merkleTree sha256 items st []
        rw [heq] at htree
        rw [← h2]
        exact htree

/-- Witness for C4 (amended), exercising the failed-batch clause on the
counterexample's concrete run: the post-state keeps the pre-call (absent)
tree. -/
theorem claim_C4_witness :
    Shadow.X402StealthPayment.createBatchPaymentsWith sha256 Shadow.X402StealthPayment.init
        [(List.replicate 32 0, 1, 0), (List.replicate 31 0, 1, 0)] =
      (.error .validationErr,
       ⟨[Shadow.X402StealthPayment.mkStealthPayment sha256 (List.replicate 32 0) 1 0],
        none⟩) ∧
    (⟨[Shadow.X402StealthPayment.mkStealthPayment sha256 (List.replicate 32 0) 1 0],
        none⟩ : Shadow.X402State).merkleTree =
      Shadow.X402StealthPayment.init.merkleTree :=
  ⟨rfl,
   (claim_C4_tree_transactional Shadow.X402StealthPayment.init (List.replicate 32 0) 1 0
      [(List.replicate 32 0, 1, 0), (List.replicate 31 0, 1, 0)]).2.2.2
     .validationErr
     ⟨[Shadow.X402StealthPayment.mkStealthPayment sha256 (List.replicate 32 0) 1 0], none⟩
     rfl⟩

/-! ## Interpolation correctness (C8): correspondence with `ZMod` -/

/-- The reference prime as a natural number. -/
def SPN : Nat := 2 ^ 251 + 17 * 2 ^ 192 + 1

theorem SHADOW_PRIME_eq : Shadow.SHADOW_PRIME = (SPN : Int) := by
  norm_num [Shadow.SHADOW_PRIME, SPN]

theorem SPN_pos : 0 < (SPN : Int) := by norm_num [SPN]

/-- The residue a field element denotes. -/
def feZ (a : Shadow.FieldElement) : ZMod SPN := (a.value : ZMod SPN)

/-- Well-formed elements of the reference field: reference modulus and
normalised value. -/
abbrev FEWF (a : Shadow.FieldElement) : Prop :=
  a.modulus = Shadow.SHADOW_PRIME ∧ 0 ≤ a.value ∧ a.value < Shadow.SHADOW_PRIME

/-- Truncated remainder exceeds `-m` for every numerator. -/
theorem tmod_gt_neg (x m : Int) (hm : 0 < m) : -m < x.tmod m := by
  have h := Int.tmod_lt_of_pos (-x) hm
  have h2 : (-x).tmod m = -(x.tmod m) := by
    rw [Int.tmod_def, Int.tmod_def, Int.neg_tdiv]
    ring
  omega

/-- The JS double-`%` normalisation is the mathematical (Euclidean) residue. -/
theorem jsMod_eq_emod (x m : Int) (hm : 0 < m) :
    Shadow.FieldElement.jsMod x m = x.emod m := by
  have hlb := tmod_gt_neg x m hm
  rw [Shadow.FieldElement.jsMod, Int.tmod_eq_emod (by omega) (by omega), Int.tmod_def]
  have hre : x - m * x.tdiv m + m = x + m * (1 - x.tdiv m) := by ring
  rw [hre, Int.add_mul_emod_self_left]
  rfl

/-- Range of the normalisation. -/
theorem jsMod_range (x m : Int) (hm : 0 < m) :
    0 ≤ Shadow.FieldElement.jsMod x m ∧ Shadow.FieldElement.jsMod x m < m := by
  rw [jsMod_eq_emod x m hm]
  exact ⟨Int.emod_nonneg x (by omega), Int.emod_lt_of_pos x hm⟩

theorem SP_int_pos : (0 : Int) < Shadow.SHADOW_PRIME := by
  rw [SHADOW_PRIME_eq]
  exact SPN_pos

/-- Casting a residue back into `ZMod` is the identity. -/
theorem castEmod (y : Int) : ((y.emod (SPN : Int) : Int) : ZMod SPN) = (y : ZMod SPN) := by
  rw [ZMod.intCast_eq_intCast_iff]
  exact Int.emod_emod_of_dvd y (dvd_refl _)

/-- The reference-modulus constructor produces a well-formed element denoting
the argument's residue. -/
theorem make_spec (x : Int) :
    FEWF (Shadow.FieldElement.make x Shadow.SHADOW_PRIME) ∧
    feZ (Shadow.FieldElement.make x Shadow.SHADOW_PRIME) = (x : ZMod SPN) := by
  have hp := SP_int_pos
  rw [Shadow.FieldElement.make]
  split_ifs with h
  · have hr := jsMod_range x _ hp
    refine ⟨⟨rfl, hr.1, hr.2⟩, ?_⟩
    show ((Shadow.FieldElement.jsMod x Shadow.SHADOW_PRIME : Int) : ZMod SPN) = x
    rw [jsMod_eq_emod _ _ hp, SHADOW_PRIME_eq, castEmod]
  · push_neg at h
    exact ⟨⟨rfl, h.1, h.2⟩, rfl⟩

theorem add_spec (a b : Shadow.FieldElement) (ha : FEWF a) :
    FEWF (a.add b) ∧ feZ (a.add b) = feZ a + feZ b := by
  rw [Shadow.FieldElement.add, ha.1]
  obtain ⟨hwf, hz⟩ := make_spec (Shadow.FieldElement.jsMod (a.value + b.value)
    Shadow.SHADOW_PRIME)
  refine ⟨hwf, ?_⟩
  rw [hz, jsMod_eq_emod _ _ SP_int_pos, SHADOW_PRIME_eq, castEmod]
  push_cast [feZ]
  ring

theorem sub_spec (a b : Shadow.FieldElement) (ha : FEWF a) :
    FEWF (a.sub b) ∧ feZ (a.sub b) = feZ a - feZ b := by
  rw [Shadow.FieldElement.sub, ha.1]
  obtain ⟨hwf, hz⟩ := make_spec (Shadow.FieldElement.jsMod (a.value - b.value)
    Shadow.SHADOW_PRIME)
  refine ⟨hwf, ?_⟩
  rw [hz, jsMod_eq_emod _ _ SP_int_pos, SHADOW_PRIME_eq, castEmod]
  push_cast [feZ]
  ring

theorem mul_spec (a b : Shadow.FieldElement) (ha : FEWF a) :
    FEWF (a.mul b) ∧ feZ (a.mul b) = feZ a * feZ b := by
  rw [Shadow.FieldElement.mul, ha.1]
  obtain ⟨hwf, hz⟩ := make_spec (Shadow.FieldElement.jsMod (a.value * b.value)
    Shadow.SHADOW_PRIME)
  refine ⟨hwf, ?_⟩
  rw [hz, jsMod_eq_emod _ _ SP_int_pos, SHADOW_PRIME_eq, castEmod]
  push_cast [feZ]
  ring

theorem neg_spec (a : Shadow.FieldElement) (ha : FEWF a) :
    FEWF a.neg ∧ feZ a.neg = -feZ a := by
  rw [Shadow.FieldElement.neg, ha.1]
  obtain ⟨hwf, hz⟩ := make_spec (Shadow.FieldElement.jsMod (-a.value) Shadow.SHADOW_PRIME)
  refine ⟨hwf, ?_⟩
  rw [hz, jsMod_eq_emod _ _ SP_int_pos, SHADOW_PRIME_eq, castEmod]
  push_cast [feZ]
  ring

/-- The inverse is always a well-formed element (whatever it denotes). -/
theorem inverse_WF (a : Shadow.FieldElement) (ha : FEWF a) : FEWF a.inverse := by
  rw [Shadow.FieldElement.inverse]
  have hr := jsMod_range (Shadow.FieldElement.egcdLoop (a.modulus.toNat + 2)
    a.value a.modulus 1 0).2 a.modulus (by rw [ha.1]; exact SP_int_pos)
  exact ⟨ha.1, hr.1, lt_of_lt_of_eq hr.2 ha.1⟩

theorem zeroF_spec : FEWF (Shadow.FieldElement.zeroF Shadow.SHADOW_PRIME) ∧
    feZ (Shadow.FieldElement.zeroF Shadow.SHADOW_PRIME) = 0 := by
  obtain ⟨hwf, hz⟩ := make_spec 0
  exact ⟨hwf, by rw [Shadow.FieldElement.zeroF, hz]; push_cast; ring⟩

theorem oneF_spec : FEWF (Shadow.FieldElement.oneF Shadow.SHADOW_PRIME) ∧
    feZ (Shadow.FieldElement.oneF Shadow.SHADOW_PRIME) = 1 := by
  obtain ⟨hwf, hz⟩ := make_spec 1
  exact ⟨hwf, by rw [Shadow.FieldElement.oneF, hz]; push_cast; ring⟩

/-- Well-formed elements with the same residue are equal. -/
theorem eq_of_feZ (a b : Shadow.FieldElement) (ha : FEWF a) (hb : FEWF b)
    (h : feZ a = feZ b) : a = b := by
  have hmod : a.modulus = b.modulus := by rw [ha.1, hb.1]
  have hmeq : a.value ≡ b.value [ZMOD (SPN : Nat)] :=
    (ZMod.intCast_eq_intCast_iff a.value b.value SPN).mp h
  have hval : a.value = b.value := by
    have h1 : a.value % (SPN : Int) = b.value % (SPN : Int) := hmeq
    have hsp := SHADOW_PRIME_eq
    rw [Int.emod_eq_of_lt ha.2.1 (by omega), Int.emod_eq_of_lt hb.2.1 (by omega)] at h1
    exact h1
  cases a
  cases b
  simp_all

/-- The Mathlib polynomial denoted by a residue coefficient list (a proof
device, not part of the embedding). -/
noncomputable def Pof (l : List (ZMod SPN)) : Polynomial (ZMod SPN) :=
  l.foldr (fun c q => Polynomial.C c + Polynomial.X * q) 0

/-- The Mathlib polynomial denoted by an embedded coefficient list. -/
noncomputable def Pl (l : List Shadow.FieldElement) : Polynomial (ZMod SPN) :=
  Pof (l.map feZ)

/-- Well-formed coefficient lists. -/
abbrev WFL (l : List Shadow.FieldElement) : Prop := ∀ c ∈ l, FEWF c

theorem coeff_Pof : ∀ (l : List (ZMod SPN)) (n : Nat), (Pof l).coeff n = l.getD n 0 := by
  intro l
  induction l with
  | nil => intro n; simp [Pof]
  | cons c rest ih =>
    intro n
    rw [Pof, List.foldr_cons]
    show (Polynomial.C c + Polynomial.X * Pof rest).coeff n = _
    cases n with
    | zero => simp
    | succ k =>
      rw [Polynomial.coeff_add, Polynomial.coeff_X_mul, Polynomial.coeff_C, ih k]
      simp

theorem coeff_Pl (l : List Shadow.FieldElement) (n : Nat) :
    (Pl l).coeff n = (l.map feZ).getD n 0 := coeff_Pof (l.map feZ) n

/-- A zero-flagged coefficient denotes 0. -/
theorem feZ_of_isZero (c : Shadow.FieldElement) (h : c.isZero = true) : feZ c = 0 := by
  rw [Shadow.FieldElement.isZero] at h
  rw [feZ, show c.value = 0 from by simpa using h]
  push_cast
  ring

/-- Appending a zero denoted coefficient changes no `getD`. -/
theorem getD_append_zero (l : List (ZMod SPN)) (n : Nat) :
    (l ++ [(0 : ZMod SPN)]).getD n 0 = l.getD n 0 := by
  rcases lt_trichotomy n l.length with h | h | h
  · rw [List.getD_eq_getElem?_getD, List.getElem?_append_left h,
      ← List.getD_eq_getElem?_getD]
  · subst h
    rw [List.getD_eq_getElem?_getD, List.getElem?_append_right (le_refl _),
      List.getD_eq_getElem?_getD, List.getElem?_eq_none (le_refl _)]
    simp
  · rw [List.getD_eq_getElem?_getD, List.getElem?_eq_none (by simp; omega),
      List.getD_eq_getElem?_getD, List.getElem?_eq_none (by omega)]

/-- Trimming the top zero coefficients does not change any denoted
coefficient. -/
theorem trim_getD (l : List Shadow.FieldElement) (n : Nat) :
    ((Shadow.Polynomial.trimTrailingZeros l).map feZ).getD n 0 =
      (l.map feZ).getD n 0 := by
  induction l using List.reverseRecOn with
  | nil => rfl
  | append_singleton xs x ih =>
    rw [Shadow.Polynomial.trimTrailingZeros, List.reverse_append]
    by_cases hx : x.isZero
    · rw [show ([x].reverse ++ xs.reverse) = x :: xs.reverse from by simp,
        List.dropWhile_cons_of_pos (by simpa using hx)]
      rw [show (xs.reverse.dropWhile fun c => c.isZero).reverse =
        Shadow.Polynomial.trimTrailingZeros xs from rfl]
      rw [ih, List.map_append]
      rw [show (List.map feZ [x]) = [(0 : ZMod SPN)] from by
        simp [feZ_of_isZero x (by simpa using hx)]]
      rw [getD_append_zero]
    · rw [show ([x].reverse ++ xs.reverse) = x :: xs.reverse from by simp,
        List.dropWhile_cons_of_neg (by simpa using hx)]
      simp

/-- Denoted coefficient of a list built by mapping over `List.range`. -/
theorem map_range_getD (f : Nat → Shadow.FieldElement) (m n : Nat) (h : n < m) :
    (((List.range m).map f).map feZ).getD n 0 = feZ (f n) := by
  rw [List.getD_eq_getElem?_getD, List.getElem?_map, List.getElem?_map]
  simp [List.getElem?_range, h]

theorem headModulus_WFL (l : List Shadow.FieldElement) (hl : WFL l) :
    Shadow.Polynomial.headModulus l = Shadow.SHADOW_PRIME := by
  cases l with
  | nil => rfl
  | cons c rest =>
    have hc := (hl c (by simp)).1
    rw [Shadow.Polynomial.headModulus, hc, if_neg (by have := SP_int_pos; omega)]

theorem coefAt_spec (l : List Shadow.FieldElement) (hl : WFL l) (i : Nat) :
    FEWF (Shadow.Polynomial.coefAt Shadow.SHADOW_PRIME l i) ∧
    feZ (Shadow.Polynomial.coefAt Shadow.SHADOW_PRIME l i) = (l.map feZ).getD i 0 := by
  rw [Shadow.Polynomial.coefAt]
  by_cases hi : i < l.length
  · rw [List.getD_eq_getElem?_getD, List.getElem?_eq_getElem hi]
    refine ⟨hl _ (List.getElem_mem hi), ?_⟩
    rw [List.getD_eq_getElem?_getD, List.getElem?_map, List.getElem?_eq_getElem hi]
    rfl
  · rw [List.getD_eq_getElem?_getD, List.getElem?_eq_none (by omega)]
    refine ⟨zeroF_spec.1, ?_⟩
    rw [List.getD_eq_getElem?_getD, List.getElem?_eq_none (by simp; omega)]
    exact zeroF_spec.2

theorem WFL_trim (l : List Shadow.FieldElement) (hl : WFL l) :
    WFL (Shadow.Polynomial.trimTrailingZeros l) := by
  intro c hc
  apply hl
  rw [Shadow.Polynomial.trimTrailingZeros] at hc
  have h1 : c ∈ l.reverse.dropWhile (fun c => c.isZero) := List.mem_reverse.mp hc
  have h2 : c ∈ l.reverse := (List.dropWhile_sublist _).mem h1
  exact List.mem_reverse.mp h2

/-- `Polynomial.add` on well-formed polynomials: still well-formed, and the
denoted polynomial is the sum. -/
theorem polyAdd_spec (p q : Shadow.Polynomial) (hp : WFL p.coefficients)
    (hq : WFL q.coefficients) :
    WFL (p.add q).coefficients ∧
    Pl (p.add q).coefficients = Pl p.coefficients + Pl q.coefficients := by
  rw [Shadow.Polynomial.add, headModulus_WFL _ hp]
  set maxLen := max p.coefficients.length q.coefficients.length with hmax
  set sumList := (List.range maxLen).map
    (fun i => (Shadow.Polynomial.coefAt Shadow.SHADOW_PRIME p.coefficients i).add
      (Shadow.Polynomial.coefAt Shadow.SHADOW_PRIME q.coefficients i)) with hsum
  have hWFs : WFL sumList := by
    intro c hc
    rw [hsum, List.mem_map] at hc
    obtain ⟨i, _, hci⟩ := hc
    rw [← hci]
    exact (add_spec _ _ (coefAt_spec p.coefficients hp i).1).1
  refine ⟨WFL_trim _ hWFs, ?_⟩
  have hPl : Pl (Shadow.Polynomial.make sumList).coefficients = Pl sumList := by
    apply Polynomial.ext
    intro n
    rw [coeff_Pl, coeff_Pl]
    exact trim_getD sumList n
  rw [show (Shadow.Polynomial.make sumList).coefficients =
    Shadow.Polynomial.trimTrailingZeros sumList from rfl] at hPl ⊢
  rw [hPl]
  apply Polynomial.ext
  intro n
  rw [coeff_Pl, Polynomial.coeff_add, coeff_Pl, coeff_Pl]
  by_cases hn : n < maxLen
  · rw [hsum, map_range_getD _ maxLen n hn]
    rw [(add_spec _ _ (coefAt_spec p.coefficients hp n).1).2,
      (coefAt_spec p.coefficients hp n).2, (coefAt_spec q.coefficients hq n).2]
  · have h1 : (sumList.map feZ).getD n 0 = 0 := by
      rw [List.getD_eq_getElem?_getD, List.getElem?_eq_none (by simp [hsum]; omega)]
      rfl
    have h2 : (p.coefficients.map feZ).getD n 0 = 0 := by
      rw [List.getD_eq_getElem?_getD, List.getElem?_eq_none (by simp; omega)]
      rfl
    have h3 : (q.coefficients.map feZ).getD n 0 = 0 := by
      rw [List.getD_eq_getElem?_getD, List.getElem?_eq_none (by simp; omega)]
      rfl
    rw [h1, h2, h3]
    ring

/-- Folding `FieldElement.add` over a well-formed list sums the residues. -/
theorem foldl_add_spec (l : List Shadow.FieldElement) (hl : WFL l) :
    ∀ acc : Shadow.FieldElement, FEWF acc →
      FEWF (l.foldl Shadow.FieldElement.add acc) ∧
      feZ (l.foldl Shadow.FieldElement.add acc) = feZ acc + (l.map feZ).sum := by
  induction l with
  | nil => intro acc hacc; exact ⟨hacc, by simp⟩
  | cons c rest ih =>
    intro acc hacc
    have hc : FEWF c := hl c (by simp)
    have hrest : WFL rest := fun d hd => hl d (by simp [hd])
    have hstep := add_spec acc c hacc
    obtain ⟨hwf, hz⟩ := ih hrest (acc.add c) hstep.1
    refine ⟨hwf, ?_⟩
    rw [List.foldl_cons, hz, hstep.2]
    simp
    ring

/-- `Polynomial.mul` on well-formed polynomials: still well-formed, and the
denoted polynomial is the product (Cauchy convolution). -/
theorem polyMul_spec (p q : Shadow.Polynomial) (hp : WFL p.coefficients)
    (hq : WFL q.coefficients) :
    WFL (p.mul q).coefficients ∧
    Pl (p.mul q).coefficients = Pl p.coefficients * Pl q.coefficients := by
  rw [Shadow.Polynomial.mul, headModulus_WFL _ hp]
  set count := p.coefficients.length + q.coefficients.length - 1 with hcount
  set g : Nat → Shadow.FieldElement := fun i =>
    ((List.range (i + 1)).map (fun j =>
      (Shadow.Polynomial.coefAt Shadow.SHADOW_PRIME p.coefficients j).mul
        (Shadow.Polynomial.coefAt Shadow.SHADOW_PRIME q.coefficients (i - j)))).foldl
      Shadow.FieldElement.add (Shadow.FieldElement.zeroF Shadow.SHADOW_PRIME) with hg
  have hWFg : ∀ i, FEWF (g i) ∧
      feZ (g i) = ∑ j ∈ Finset.range (i + 1),
        (p.coefficients.map feZ).getD j 0 * (q.coefficients.map feZ).getD (i - j) 0 := by
    intro i
    have hWFin : WFL ((List.range (i + 1)).map (fun j =>
        (Shadow.Polynomial.coefAt Shadow.SHADOW_PRIME p.coefficients j).mul
          (Shadow.Polynomial.coefAt Shadow.SHADOW_PRIME q.coefficients (i - j)))) := by
      intro c hc
      rw [List.mem_map] at hc
      obtain ⟨j, _, hcj⟩ := hc
      rw [← hcj]
      exact (mul_spec _ _ (coefAt_spec p.coefficients hp j).1).1
    obtain ⟨hwf, hz⟩ := foldl_add_spec _ hWFin _ zeroF_spec.1
    refine ⟨hwf, ?_⟩
    rw [hg, hz, zeroF_spec.2, List.map_map]
    have hsum : ((List.range (i + 1)).map (feZ ∘ fun j =>
        (Shadow.Polynomial.coefAt Shadow.SHADOW_PRIME p.coefficients j).mul
          (Shadow.Polynomial.coefAt Shadow.SHADOW_PRIME q.coefficients (i - j)))).sum =
        ∑ j ∈ Finset.range (i + 1),
          feZ ((Shadow.Polynomial.coefAt Shadow.SHADOW_PRIME p.coefficients j).mul
            (Shadow.Polynomial.coefAt Shadow.SHADOW_PRIME q.coefficients (i - j))) := rfl
    rw [hsum]
    rw [zero_add]
    apply Finset.sum_congr rfl
    intro j _
    rw [(mul_spec _ _ (coefAt_spec p.coefficients hp j).1).2,
      (coefAt_spec p.coefficients hp j).2, (coefAt_spec q.coefficients hq (i - j)).2]
  have hWFlist : WFL ((List.range count).map g) := by
    intro c hc
    rw [List.mem_map] at hc
    obtain ⟨i, _, hci⟩ := hc
    rw [← hci]
    exact (hWFg i).1
  refine ⟨WFL_trim _ hWFlist, ?_⟩
  have hPl : Pl (Shadow.Polynomial.trimTrailingZeros ((List.range count).map g)) =
      Pl ((List.range count).map g) := by
    apply Polynomial.ext
    intro n
    rw [coeff_Pl, coeff_Pl]
    exact trim_getD _ n
  rw [show (Shadow.Polynomial.make ((List.range count).map g)).coefficients =
    Shadow.Polynomial.trimTrailingZeros ((List.range count).map g) from rfl, hPl]
  apply Polynomial.ext
  intro n
  rw [coeff_Pl, Polynomial.coeff_mul,
    Finset.Nat.sum_antidiagonal_eq_sum_range_succ_mk]
  by_cases hn : n < count
  · rw [map_range_getD g count n hn, (hWFg n).2]
    apply Finset.sum_congr rfl
    intro j _
    rw [coeff_Pl, coeff_Pl]
  · have h1 : (((List.range count).map g).map feZ).getD n 0 = 0 := by
      rw [List.getD_eq_getElem?_getD, List.getElem?_eq_none (by simp; omega)]
      rfl
    rw [h1]
    symm
    apply Finset.sum_eq_zero
    intro j hj
    rw [Finset.mem_range] at hj
    by_cases hjp : j < p.coefficients.length
    · have hB : (Pl q.coefficients).coeff (n - j) = 0 := by
        rw [coeff_Pl, List.getD_eq_getElem?_getD, List.getElem?_eq_none (by simp; omega)]
        rfl
      rw [hB]
      ring
    · have hA : (Pl p.coefficients).coeff j = 0 := by
        rw [coeff_Pl, List.getD_eq_getElem?_getD, List.getElem?_eq_none (by simp; omega)]
        rfl
      rw [hA]
      ring

theorem Pl_make (l : List Shadow.FieldElement) :
    Pl (Shadow.Polynomial.make l).coefficients = Pl l := by
  apply Polynomial.ext
  intro n
  rw [show (Shadow.Polynomial.make l).coefficients =
    Shadow.Polynomial.trimTrailingZeros l from rfl, coeff_Pl, coeff_Pl]
  exact trim_getD l n

theorem Pl_nil : Pl [] = 0 := rfl

theorem Pl_single (c : Shadow.FieldElement) : Pl [c] = Polynomial.C (feZ c) := by
  show Polynomial.C (feZ c) + Polynomial.X * 0 = _
  ring

theorem Pl_pair (a b : Shadow.FieldElement) :
    Pl [a, b] = Polynomial.C (feZ a) + Polynomial.X * Polynomial.C (feZ b) := by
  show Polynomial.C (feZ a) + Polynomial.X *
    (Polynomial.C (feZ b) + Polynomial.X * 0) = _
  ring

theorem polyZero_spec : WFL (Shadow.Polynomial.zero Shadow.SHADOW_PRIME).coefficients ∧
    Pl (Shadow.Polynomial.zero Shadow.SHADOW_PRIME).coefficients = 0 := by
  constructor
  · exact WFL_trim _ (fun c hc => by
      rw [List.mem_singleton] at hc
      rw [hc]
      exact zeroF_spec.1)
  · rw [Shadow.Polynomial.zero, Pl_make, Pl_single, zeroF_spec.2]
    simp

theorem polyOne_spec : WFL (Shadow.Polynomial.one Shadow.SHADOW_PRIME).coefficients ∧
    Pl (Shadow.Polynomial.one Shadow.SHADOW_PRIME).coefficients = 1 := by
  constructor
  · exact WFL_trim _ (fun c hc => by
      rw [List.mem_singleton] at hc
      rw [hc]
      exact oneF_spec.1)
  · rw [Shadow.Polynomial.one, Pl_make, Pl_single, oneF_spec.2]
    simp

/-- The evaluation loop of `evaluate`, with arbitrary accumulators. -/
theorem evaluate_fold (x : Shadow.FieldElement) (hx : FEWF x) :
    ∀ (l : List Shadow.FieldElement), WFL l →
      ∀ (r pw : Shadow.FieldElement), FEWF r → FEWF pw →
      FEWF ((l.foldl (fun (acc : Shadow.FieldElement × Shadow.FieldElement) c =>
        (acc.1.add (c.mul acc.2), acc.2.mul x)) (r, pw)).1) ∧
      feZ ((l.foldl (fun (acc : Shadow.FieldElement × Shadow.FieldElement) c =>
        (acc.1.add (c.mul acc.2), acc.2.mul x)) (r, pw)).1) =
        feZ r + feZ pw * (Pl l).eval (feZ x) := by
  intro l
  induction l with
  | nil =>
    intro _ r pw hr hpw
    exact ⟨hr, by rw [Pl_nil]; simp⟩
  | cons c rest ih =>
    intro hl r pw hr hpw
    have hc : FEWF c := hl c (by simp)
    have hrest : WFL rest := fun d hd => hl d (by simp [hd])
    have hr1 := add_spec r (c.mul pw) hr
    have hpw1 := mul_spec pw x hpw
    obtain ⟨hwf, hz⟩ := ih hrest (r.add (c.mul pw)) (pw.mul x) hr1.1 hpw1.1
    refine ⟨hwf, ?_⟩
    rw [List.foldl_cons, hz, hr1.2, hpw1.2, (mul_spec c pw hc).2]
    have hPlc : Pl (c :: rest) = Polynomial.C (feZ c) + Polynomial.X * Pl rest := rfl
    rw [hPlc]
    simp [Polynomial.eval_add, Polynomial.eval_mul]
    ring

/-- `evaluate` on a well-formed polynomial at a well-formed point denotes
evaluation of the denoted polynomial. -/
theorem evaluate_spec (p : Shadow.Polynomial) (hp : WFL p.coefficients)
    (x : Shadow.FieldElement) (hx : FEWF x) :
    FEWF (p.evaluate x) ∧
    feZ (p.evaluate x) = (Pl p.coefficients).eval (feZ x) := by
  rw [Shadow.Polynomial.evaluate, hx.1]
  obtain ⟨hwf, hz⟩ := evaluate_fold x hx p.coefficients hp
    (Shadow.FieldElement.zeroF Shadow.SHADOW_PRIME)
    (Shadow.FieldElement.oneF Shadow.SHADOW_PRIME) zeroF_spec.1 oneF_spec.1
  refine ⟨hwf, ?_⟩
  rw [hz, zeroF_spec.2, oneF_spec.2]
  ring

/-- The inner (basis-building) step of `interpolate`'s Lagrange loop. -/
def innerStep (points : List (Shadow.FieldElement × Shadow.FieldElement)) (m : Int)
    (i : Nat) (basis : Shadow.Polynomial) (j : Nat) : Shadow.Polynomial :=
  if i = j then basis
  else
    (basis.mul (Shadow.Polynomial.make
      [(points.getD j Shadow.Polynomial.dfltPoint).1.neg, Shadow.FieldElement.oneF m])).mul
      (Shadow.Polynomial.make
        [((points.getD i Shadow.Polynomial.dfltPoint).1.sub
          (points.getD j Shadow.Polynomial.dfltPoint).1).inverse])

/-- The outer (term-accumulating) step of `interpolate`'s Lagrange loop. -/
def outerStep (points : List (Shadow.FieldElement × Shadow.FieldElement)) (m : Int)
    (result : Shadow.Polynomial) (i : Nat) : Shadow.Polynomial :=
  result.add
    (((List.range points.length).foldl (innerStep points m i)
      (Shadow.Polynomial.one m)).mul
      (Shadow.Polynomial.make [(points.getD i Shadow.Polynomial.dfltPoint).2]))

/-- `interpolateAux` is the fold of `outerStep`. -/
theorem interpolateAux_eq (points : List (Shadow.FieldElement × Shadow.FieldElement)) :
    Shadow.Polynomial.interpolateAux points =
      (List.range points.length).foldl
        (outerStep points (points.headD Shadow.Polynomial.dfltPoint).1.modulus)
        (Shadow.Polynomial.zero (points.headD Shadow.Polynomial.dfltPoint).1.modulus) := rfl

/-- Well-formedness of every indexed point (defaults included). -/
theorem ptWF (points : List (Shadow.FieldElement × Shadow.FieldElement))
    (hWF : ∀ pt ∈ points, FEWF pt.1 ∧ FEWF pt.2) (i : Nat) :
    FEWF (points.getD i Shadow.Polynomial.dfltPoint).1 ∧
    FEWF (points.getD i Shadow.Polynomial.dfltPoint).2 := by
  by_cases hi : i < points.length
  · rw [List.getD_eq_getElem?_getD, List.getElem?_eq_getElem hi]
    exact hWF _ (List.getElem_mem hi)
  · rw [List.getD_eq_getElem?_getD, List.getElem?_eq_none (by omega)]
    exact ⟨zeroF_spec.1, zeroF_spec.1⟩

/-- The inferred interpolation modulus is the reference prime. -/
theorem interpMod (points : List (Shadow.FieldElement × Shadow.FieldElement))
    (hWF : ∀ pt ∈ points, FEWF pt.1 ∧ FEWF pt.2) :
    (points.headD Shadow.Polynomial.dfltPoint).1.modulus = Shadow.SHADOW_PRIME := by
  cases points with
  | nil => exact zeroF_spec.1.1
  | cons pt rest => exact (hWF pt (by simp)).1.1

/-- One Lagrange factor, denoted. -/
noncomputable def lagFactor (points : List (Shadow.FieldElement × Shadow.FieldElement))
    (i j : Nat) : Polynomial (ZMod SPN) :=
  if i = j then 1
  else (Polynomial.X - Polynomial.C (feZ (points.getD j Shadow.Polynomial.dfltPoint).1)) *
    Polynomial.C (feZ (((points.getD i Shadow.Polynomial.dfltPoint).1.sub
      (points.getD j Shadow.Polynomial.dfltPoint).1).inverse))

/-- The inner fold builds the product of Lagrange factors. -/
theorem innerFold_spec (points : List (Shadow.FieldElement × Shadow.FieldElement))
    (hWF : ∀ pt ∈ points, FEWF pt.1 ∧ FEWF pt.2) (i : Nat) :
    ∀ (k : Nat) (acc : Shadow.Polynomial), WFL acc.coefficients →
      WFL (((List.range k).foldl (innerStep points Shadow.SHADOW_PRIME i)
        acc).coefficients) ∧
      Pl (((List.range k).foldl (innerStep points Shadow.SHADOW_PRIME i)
        acc).coefficients) =
        Pl acc.coefficients * ∏ j ∈ Finset.range k, lagFactor points i j := by
  intro k
  induction k with
  | zero => intro acc hacc; exact ⟨hacc, by simp⟩
  | succ k ih =>
    intro acc hacc
    rw [List.range_succ, List.foldl_append, List.foldl_cons, List.foldl_nil]
    obtain ⟨hwf, hz⟩ := ih acc hacc
    rw [innerStep]
    by_cases hij : i = k
    · rw [if_pos hij]
      refine ⟨hwf, ?_⟩
      rw [hz, Finset.prod_range_succ, lagFactor, if_pos hij]
      ring
    · rw [if_neg hij]
      have hnum : WFL (Shadow.Polynomial.make
          [(points.getD k Shadow.Polynomial.dfltPoint).1.neg,
           Shadow.FieldElement.oneF Shadow.SHADOW_PRIME]).coefficients := by
        apply WFL_trim
        intro c hc
        simp only [List.mem_cons, List.mem_singleton, List.not_mem_nil, or_false] at hc
        rcases hc with hc | hc
        · rw [hc]
          exact (neg_spec _ (ptWF points hWF k).1).1
        · rw [hc]
          exact oneF_spec.1
      have hd : FEWF ((points.getD i Shadow.Polynomial.dfltPoint).1.sub
          (points.getD k Shadow.Polynomial.dfltPoint).1) :=
        (sub_spec _ _ (ptWF points hWF i).1).1
      have hinvp : WFL (Shadow.Polynomial.make
          [((points.getD i Shadow.Polynomial.dfltPoint).1.sub
            (points.getD k Shadow.Polynomial.dfltPoint).1).inverse]).coefficients := by
        apply WFL_trim
        intro c hc
        simp only [List.mem_singleton] at hc
        rw [hc]
        exact inverse_WF _ hd
      have hmul1 := polyMul_spec _ _ hwf hnum
      have hmul2 := polyMul_spec _ _ hmul1.1 hinvp
      refine ⟨hmul2.1, ?_⟩
      rw [hmul2.2, hmul1.2, hz]
      have hnumPl : Pl (Shadow.Polynomial.make
          [(points.getD k Shadow.Polynomial.dfltPoint).1.neg,
           Shadow.FieldElement.oneF Shadow.SHADOW_PRIME]).coefficients =
          Polynomial.X - Polynomial.C (feZ (points.getD k Shadow.Polynomial.dfltPoint).1) := by
        rw [Pl_make, Pl_pair, (neg_spec _ (ptWF points hWF k).1).2, oneF_spec.2,
          Polynomial.C_neg, Polynomial.C_1]
        ring
      have hinvPl : Pl (Shadow.Polynomial.make
          [((points.getD i Shadow.Polynomial.dfltPoint).1.sub
            (points.getD k Shadow.Polynomial.dfltPoint).1).inverse]).coefficients =
          Polynomial.C (feZ (((points.getD i Shadow.Polynomial.dfltPoint).1.sub
            (points.getD k Shadow.Polynomial.dfltPoint).1).inverse)) := by
        rw [Pl_make, Pl_single]
      rw [hnumPl, hinvPl, Finset.prod_range_succ, lagFactor, if_neg hij]
      ring

/-- The outer fold accumulates the Lagrange terms. -/
theorem outerFold_spec (points : List (Shadow.FieldElement × Shadow.FieldElement))
    (hWF : ∀ pt ∈ points, FEWF pt.1 ∧ FEWF pt.2) :
    ∀ (k : Nat) (acc : Shadow.Polynomial), WFL acc.coefficients →
      WFL (((List.range k).foldl (outerStep points Shadow.SHADOW_PRIME)
        acc).coefficients) ∧
      Pl (((List.range k).foldl (outerStep points Shadow.SHADOW_PRIME)
        acc).coefficients) =
        Pl acc.coefficients + ∑ i ∈ Finset.range k,
          (∏ j ∈ Finset.range points.length, lagFactor points i j) *
            Polynomial.C (feZ (points.getD i Shadow.Polynomial.dfltPoint).2) := by
  intro k
  induction k with
  | zero => intro acc hacc; exact ⟨hacc, by simp⟩
  | succ k ih =>
    intro acc hacc
    rw [List.range_succ, List.foldl_append, List.foldl_cons, List.foldl_nil]
    obtain ⟨hwf, hz⟩ := ih acc hacc
    rw [outerStep]
    obtain ⟨hbwf, hbz⟩ := innerFold_spec points hWF k points.length
      (Shadow.Polynomial.one Shadow.SHADOW_PRIME) polyOne_spec.1
    have hyWF : WFL (Shadow.Polynomial.make
        [(points.getD k Shadow.Polynomial.dfltPoint).2]).coefficients := by
      apply WFL_trim
      intro c hc
      simp only [List.mem_singleton] at hc
      rw [hc]
      exact (ptWF points hWF k).2
    have hmul := polyMul_spec _ _ hbwf hyWF
    have hadd := polyAdd_spec _ _ hwf hmul.1
    refine ⟨hadd.1, ?_⟩
    rw [hadd.2, hz, hmul.2, hbz, polyOne_spec.2, Pl_make, Pl_single,
      Finset.sum_range_succ]
    ring

/-- Lagrange interpolation as implemented: on well-formed points whose
pairwise differences are invertible in the source's own sense, the
interpolated polynomial evaluates to `yk` at `xk`. -/
theorem interpolateAux_evaluate
    (points : List (Shadow.FieldElement × Shadow.FieldElement))
    (hWF : ∀ pt ∈ points, FEWF pt.1 ∧ FEWF pt.2)
    (hinv : ∀ i j : Nat, i < points.length → j < points.length → i ≠ j →
      ((points.getD i Shadow.Polynomial.dfltPoint).1.sub
        (points.getD j Shadow.Polynomial.dfltPoint).1).mul
        (((points.getD i Shadow.Polynomial.dfltPoint).1.sub
          (points.getD j Shadow.Polynomial.dfltPoint).1).inverse) =
        Shadow.FieldElement.oneF Shadow.SHADOW_PRIME)
    (k : Nat) (hk : k < points.length) :
    (Shadow.Polynomial.interpolateAux points).evaluate
      (points.getD k Shadow.Polynomial.dfltPoint).1 =
      (points.getD k Shadow.Polynomial.dfltPoint).2 := by
  have hIA := interpolateAux_eq points
  rw [interpMod points hWF] at hIA
  obtain ⟨hWFi, hPl⟩ := outerFold_spec points hWF points.length
    (Shadow.Polynomial.zero Shadow.SHADOW_PRIME) polyZero_spec.1
  rw [polyZero_spec.2, zero_add] at hPl
  have hWFip : WFL (Shadow.Polynomial.interpolateAux points).coefficients := by
    rw [hIA]
    exact hWFi
  obtain ⟨hWFe, hev⟩ := evaluate_spec (Shadow.Polynomial.interpolateAux points) hWFip
    (points.getD k Shadow.Polynomial.dfltPoint).1 (ptWF points hWF k).1
  have hPli : Pl (Shadow.Polynomial.interpolateAux points).coefficients =
      ∑ i ∈ Finset.range points.length,
        (∏ j ∈ Finset.range points.length, lagFactor points i j) *
          Polynomial.C (feZ (points.getD i Shadow.Polynomial.dfltPoint).2) := by
    rw [hIA]
    exact hPl
  rw [hPli] at hev
  set z := feZ (points.getD k Shadow.Polynomial.dfltPoint).1 with hzdef
  have heval : (∑ i ∈ Finset.range points.length,
      (∏ j ∈ Finset.range points.length, lagFactor points i j) *
        Polynomial.C (feZ (points.getD i Shadow.Polynomial.dfltPoint).2)).eval z =
      feZ (points.getD k Shadow.Polynomial.dfltPoint).2 := by
    rw [Polynomial.eval_finset_sum]
    rw [Finset.sum_eq_single_of_mem k (Finset.mem_range.mpr hk)]
    · rw [Polynomial.eval_mul, Polynomial.eval_prod, Polynomial.eval_C]
      have hprod : ∏ j ∈ Finset.range points.length, (lagFactor points k j).eval z = 1 := by
        apply Finset.prod_eq_one
        intro j hj
        rw [Finset.mem_range] at hj
        rw [lagFactor]
        by_cases hkj : k = j
        · rw [if_pos hkj]
          simp
        · rw [if_neg hkj]
          rw [Polynomial.eval_mul, Polynomial.eval_sub, Polynomial.eval_X,
            Polynomial.eval_C, Polynomial.eval_C]
          have hsub := sub_spec (points.getD k Shadow.Polynomial.dfltPoint).1
            (points.getD j Shadow.Polynomial.dfltPoint).1 (ptWF points hWF k).1
          have hmul := mul_spec _ (((points.getD k Shadow.Polynomial.dfltPoint).1.sub
            (points.getD j Shadow.Polynomial.dfltPoint).1).inverse) hsub.1
          rw [← hzdef] at hsub
          rw [show z - feZ (points.getD j Shadow.Polynomial.dfltPoint).1 =
            feZ ((points.getD k Shadow.Polynomial.dfltPoint).1.sub
              (points.getD j Shadow.Polynomial.dfltPoint).1) from hsub.2.symm]
          rw [← hmul.2, hinv k j hk hj hkj, oneF_spec.2]
      rw [hprod, one_mul]
    · intro i hi hik
      rw [Polynomial.eval_mul, Polynomial.eval_prod]
      have hzero : ∏ j ∈ Finset.range points.length, (lagFactor points i j).eval z = 0 := by
        apply Finset.prod_eq_zero (Finset.mem_range.mpr hk)
        rw [lagFactor, if_neg hik]
        rw [Polynomial.eval_mul, Polynomial.eval_sub, Polynomial.eval_X, Polynomial.eval_C,
          Polynomial.eval_C, hzdef]
        ring
      rw [hzero, zero_mul]
  rw [heval] at hev
  exact eq_of_feZ _ _ hWFe (ptWF points hWF k).2 hev

/-- The claim's concrete interpolation instance `{(0,1),(1,2),(2,3)}` over the
reference prime. -/
def c8Points : List (Shadow.FieldElement × Shadow.FieldElement) :=
  [(Shadow.FieldElement.make 0 Shadow.SHADOW_PRIME,
    Shadow.FieldElement.make 1 Shadow.SHADOW_PRIME),
   (Shadow.FieldElement.make 1 Shadow.SHADOW_PRIME,
    Shadow.FieldElement.make 2 Shadow.SHADOW_PRIME),
   (Shadow.FieldElement.make 2 Shadow.SHADOW_PRIME,
    Shadow.FieldElement.make 3 Shadow.SHADOW_PRIME)]

/-- C8: `Polynomial.interpolate`, over reference-field points whose pairwise
x-differences are invertible (the implementation's own criterion for pairwise
distinct x-coordinates), returns a polynomial `p` with `p.evaluate(xi) = yi`
for every input point; concretely, interpolating `{(0,1),(1,2),(2,3)}` over
the (large enough) reference prime gives `p.evaluate(3) = 4`. -/
theorem claim_C8_interpolate_evaluates
    (points : List (Shadow.FieldElement × Shadow.FieldElement))
    (hne : points ≠ [])
    (hWF : ∀ pt ∈ points, FEWF pt.1 ∧ FEWF pt.2)
    (hinv : ∀ i j : Nat, i < points.length → j < points.length → i ≠ j →
      ((points.getD i Shadow.Polynomial.dfltPoint).1.sub
        (points.getD j Shadow.Polynomial.dfltPoint).1).mul
        (((points.getD i Shadow.Polynomial.dfltPoint).1.sub
          (points.getD j Shadow.Polynomial.dfltPoint).1).inverse) =
        Shadow.FieldElement.oneF Shadow.SHADOW_PRIME) :
    (∃ p, Shadow.Polynomial.interpolate points = .ok p ∧
      ∀ k, k < points.length →
        p.evaluate (points.getD k Shadow.Polynomial.dfltPoint).1 =
          (points.getD k Shadow.Polynomial.dfltPoint).2) ∧
    (Shadow.Polynomial.interpolate c8Points =
        .ok (Shadow.Polynomial.interpolateAux c8Points) ∧
      (Shadow.Polynomial.interpolateAux c8Points).evaluate
          (Shadow.FieldElement.make 3 Shadow.SHADOW_PRIME) =
        Shadow.FieldElement.make 4 Shadow.SHADOW_PRIME) := by
  constructor
  · refine ⟨Shadow.Polynomial.interpolateAux points, ?_, ?_⟩
    · rw [Shadow.Polynomial.interpolate,
        if_neg (by rw [List.length_eq_zero]; exact hne)]
    · intro k hk
      exact interpolateAux_evaluate points hWF hinv k hk
  · exact ⟨rfl, by decide⟩

/-- Witness for C8 at the concrete three points `{(0,1),(1,2),(2,3)}` over
the reference prime (the invertibility hypotheses are discharged by running
the extended-Euclidean inverse on each of the six pairwise differences). -/
theorem claim_C8_witness :
    (c8Points ≠ [] ∧
      (∀ pt ∈ c8Points, FEWF pt.1 ∧ FEWF pt.2)) ∧
    ((∃ p, Shadow.Polynomial.interpolate c8Points = .ok p ∧
      ∀ k, k < c8Points.length →
        p.evaluate (c8Points.getD k Shadow.Polynomial.dfltPoint).1 =
          (c8Points.getD k Shadow.Polynomial.dfltPoint).2) ∧
    (Shadow.Polynomial.interpolate c8Points =
        .ok (Shadow.Polynomial.interpolateAux c8Points) ∧
      (Shadow.Polynomial.interpolateAux c8Points).evaluate
          (Shadow.FieldElement.make 3 Shadow.SHADOW_PRIME) =
        Shadow.FieldElement.make 4 Shadow.SHADOW_PRIME)) :=
  ⟨⟨by decide, by decide⟩,
   claim_C8_interpolate_evaluates c8Points (by decide) (by decide)
     (by
       intro i j hi hj hij
       have hi3 : i < 3 := by simpa [c8Points] using hi
       have hj3 : j < 3 := by simpa [c8Points] using hj
       interval_cases i <;> interval_cases j <;>
         first
           | exact absurd rfl hij
           | decide)⟩
